import Mathlib

/-!
Verification of the JSON-RPC dispatch core of the `mcp-server` repository.

The development shallowly embeds the parts of the code that the claims
touch:

* `J` — JSON values, as produced by Python's `json` module on the inputs
  this server handles (`src/mcp/server.py`, `src/cursor-integration/mcp-http-bridge.py`).
* `scan_once` / `raw_decode` — a model of `json.JSONDecoder.raw_decode`
  restricted to the JSON fragment the claims exercise: objects, arrays,
  strings over printable ASCII with the single-character backslash escapes,
  integer numerals with the leading-zero rule, `null`, `true`, `false`,
  and the JSON whitespace conventions of CPython's scanner.  Float
  literals, `NaN`/`Infinity` and `\uXXXX` escapes are outside the fragment
  (no claim depends on them: every theorem feeds the scanner texts produced
  by `encode` below, or the concrete corrupt inputs of the claims).
* `read_messages` — the buffering/draining loop shared verbatim by
  `McpServer.run.read_messages` and `MCPHTTPBridge.handle_stdio.read_requests`:
  append a chunk to the buffer, repeatedly `raw_decode` at the head,
  process each decoded value, drop the consumed span and `str.lstrip` the
  rest, and stop draining on the first decode failure.  The per-message
  processing step is a parameter producing a list of trace events, so the
  same loop model serves both files.
* `handle_request` — `McpServer.handle_request`, the dispatcher.
* `forward_request` — `MCPHTTPBridge.forward_request`, the HTTP bridge.

`encode` renders a `J` value as compact JSON text (no inter-token
whitespace); it is used to form the client-side byte streams that the
framing claims quantify over.
-/

namespace MCP

/-- JSON values, as Python's `json` module models them on this server's
traffic.  Numbers are integers (the fragment used by the claims), object
members keep their textual order. -/
inductive J where
  | null : J
  | bool (b : Bool) : J
  | num (n : Int) : J
  | str (s : List Char) : J
  | arr (elems : List J) : J
  | obj (members : List (List Char × J)) : J

mutual

/-- Boolean equality on `J` (spelled out because `deriving` does not
handle the nested inductive). -/
def beqJ : J → J → Bool
  | J.null, J.null => true
  | J.bool a, J.bool b => a == b
  | J.num a, J.num b => a == b
  | J.str a, J.str b => a == b
  | J.arr a, J.arr b => beqListJ a b
  | J.obj a, J.obj b => beqMembersJ a b
  | _, _ => false

def beqListJ : List J → List J → Bool
  | [], [] => true
  | a :: as, b :: bs => beqJ a b && beqListJ as bs
  | _, _ => false

def beqMembersJ : List (List Char × J) → List (List Char × J) → Bool
  | [], [] => true
  | (k1, v1) :: as, (k2, v2) :: bs => (k1 == k2 && beqJ v1 v2) && beqMembersJ as bs
  | _, _ => false

end

mutual

theorem beqJ_refl : ∀ a : J, beqJ a a = true
  | J.null => rfl
  | J.bool b => by simp [beqJ]
  | J.num n => by simp [beqJ]
  | J.str s => by simp [beqJ]
  | J.arr vs => by simpa [beqJ] using beqListJ_refl vs
  | J.obj ms => by simpa [beqJ] using beqMembersJ_refl ms

theorem beqListJ_refl : ∀ l : List J, beqListJ l l = true
  | [] => rfl
  | v :: vs => by simp [beqListJ, beqJ_refl v, beqListJ_refl vs]

theorem beqMembersJ_refl : ∀ l : List (List Char × J), beqMembersJ l l = true
  | [] => rfl
  | (k, v) :: ms => by simp [beqMembersJ, beqJ_refl v, beqMembersJ_refl ms]

end

mutual

theorem beqJ_eq : ∀ a b : J, beqJ a b = true → a = b
  | J.null, J.null, _ => rfl
  | J.null, J.bool _, h => by simp [beqJ] at h
  | J.null, J.num _, h => by simp [beqJ] at h
  | J.null, J.str _, h => by simp [beqJ] at h
  | J.null, J.arr _, h => by simp [beqJ] at h
  | J.null, J.obj _, h => by simp [beqJ] at h
  | J.bool _, J.null, h => by simp [beqJ] at h
  | J.bool a, J.bool b, h => by
    simp only [beqJ, beq_iff_eq] at h
    rw [h]
  | J.bool _, J.num _, h => by simp [beqJ] at h
  | J.bool _, J.str _, h => by simp [beqJ] at h
  | J.bool _, J.arr _, h => by simp [beqJ] at h
  | J.bool _, J.obj _, h => by simp [beqJ] at h
  | J.num _, J.null, h => by simp [beqJ] at h
  | J.num _, J.bool _, h => by simp [beqJ] at h
  | J.num a, J.num b, h => by
    simp only [beqJ, beq_iff_eq] at h
    rw [h]
  | J.num _, J.str _, h => by simp [beqJ] at h
  | J.num _, J.arr _, h => by simp [beqJ] at h
  | J.num _, J.obj _, h => by simp [beqJ] at h
  | J.str _, J.null, h => by simp [beqJ] at h
  | J.str _, J.bool _, h => by simp [beqJ] at h
  | J.str _, J.num _, h => by simp [beqJ] at h
  | J.str a, J.str b, h => by
    simp only [beqJ, beq_iff_eq] at h
    rw [h]
  | J.str _, J.arr _, h => by simp [beqJ] at h
  | J.str _, J.obj _, h => by simp [beqJ] at h
  | J.arr _, J.null, h => by simp [beqJ] at h
  | J.arr _, J.bool _, h => by simp [beqJ] at h
  | J.arr _, J.num _, h => by simp [beqJ] at h
  | J.arr _, J.str _, h => by simp [beqJ] at h
  | J.arr a, J.arr b, h => by
    have hl : beqListJ a b = true := by simpa [beqJ] using h
    rw [beqListJ_eq a b hl]
  | J.arr _, J.obj _, h => by simp [beqJ] at h
  | J.obj _, J.null, h => by simp [beqJ] at h
  | J.obj _, J.bool _, h => by simp [beqJ] at h
  | J.obj _, J.num _, h => by simp [beqJ] at h
  | J.obj _, J.str _, h => by simp [beqJ] at h
  | J.obj _, J.arr _, h => by simp [beqJ] at h
  | J.obj a, J.obj b, h => by
    have hl : beqMembersJ a b = true := by simpa [beqJ] using h
    rw [beqMembersJ_eq a b hl]

theorem beqListJ_eq : ∀ a b : List J, beqListJ a b = true → a = b
  | [], [], _ => rfl
  | [], _ :: _, h => by simp [beqListJ] at h
  | _ :: _, [], h => by simp [beqListJ] at h
  | a :: as, b :: bs, h => by
    have h1 : beqJ a b = true ∧ beqListJ as bs = true := by
      simpa [beqListJ, Bool.and_eq_true] using h
    rw [beqJ_eq a b h1.1, beqListJ_eq as bs h1.2]

theorem beqMembersJ_eq : ∀ a b : List (List Char × J), beqMembersJ a b = true → a = b
  | [], [], _ => rfl
  | [], _ :: _, h => by simp [beqMembersJ] at h
  | _ :: _, [], h => by simp [beqMembersJ] at h
  | (k1, v1) :: as, (k2, v2) :: bs, h => by
    have h1 : ((k1 == k2) = true ∧ beqJ v1 v2 = true) ∧ beqMembersJ as bs = true := by
      simpa [beqMembersJ, Bool.and_eq_true] using h
    have hk : k1 = k2 := by
      have := h1.1.1
      simpa using this
    rw [hk, beqJ_eq v1 v2 h1.1.2, beqMembersJ_eq as bs h1.2]

end

instance : DecidableEq J := fun a b =>
  decidable_of_iff (beqJ a b = true) ⟨beqJ_eq a b, fun h => h ▸ beqJ_refl a⟩

/-- JSON whitespace, CPython `json.decoder.WHITESPACE_STR`. -/
def isJsonWs (c : Char) : Bool :=
  c == ' ' || c == '\t' || c == '\n' || c == '\r'

/-- Python `str.isspace` on the ASCII range, as used by `str.lstrip()`. -/
def isPyWs (c : Char) : Bool :=
  isJsonWs c || c == '\x0b' || c == '\x0c'

/-- Skip JSON whitespace (the `_w(s, end).end()` steps of the scanner). -/
def skipWs : List Char → List Char := List.dropWhile isJsonWs

/-- `str.lstrip()` (applied by the loop after each consumed message). -/
def lstrip : List Char → List Char := List.dropWhile isPyWs

def isDigitChar (c : Char) : Bool := '0' ≤ c && c ≤ '9'

/-- The single-character backslash escapes of `json.decoder.BACKSLASH`
(`\uXXXX` is outside the modelled fragment). -/
def unescapeChar : Char → Option Char
  | '"' => some '"'
  | '\\' => some '\\'
  | '/' => some '/'
  | 'b' => some '\x08'
  | 'f' => some '\x0c'
  | 'n' => some '\n'
  | 'r' => some '\r'
  | 't' => some '\t'
  | _ => none

/-- `json.decoder.py_scanstring`: scan a string body after the opening
quote; strict mode, so raw control characters are rejected. -/
def scanstring : List Char → Option (List Char × List Char)
  | [] => none
  | '"' :: r => some ([], r)
  | '\\' :: [] => none
  | '\\' :: e :: r =>
    match unescapeChar e with
    | some c => (scanstring r).map (fun p => (c :: p.1, p.2))
    | none => none
  | c :: r =>
    if c.toNat < 0x20 then none
    else (scanstring r).map (fun p => (c :: p.1, p.2))

/-- Digit munching of the scanner's NUMBER_RE: accumulate decimal digits. -/
def munchNum (acc : Nat) : List Char → Nat × List Char
  | c :: r => if isDigitChar c then munchNum (10 * acc + (c.toNat - 48)) r else (acc, c :: r)
  | [] => (acc, [])

/-- The integer part of NUMBER_RE: `0` or a nonzero digit followed by
digits (leading zeros terminate the numeral, as in CPython). -/
def parseUInt : List Char → Option (Nat × List Char)
  | '0' :: r => some (0, r)
  | c :: r => if '1' ≤ c && c ≤ '9' then some (munchNum (c.toNat - 48) r) else none
  | [] => none

/-- Number scanning (integer fragment of NUMBER_RE). -/
def parseNumber : List Char → Option (J × List Char)
  | '-' :: r => (parseUInt r).map (fun p => (J.num (-(p.1 : Int)), p.2))
  | s => (parseUInt s).map (fun p => (J.num (p.1 : Int), p.2))

mutual

/-- `json.scanner.py_make_scanner._scan_once`, fueled: scan one JSON value
at the head of the input (no leading-whitespace skipping, exactly as
`raw_decode`).  Returns the value and the unconsumed rest. -/
def scan_once : Nat → List Char → Option (J × List Char)
  | 0, _ => none
  | fuel + 1, s =>
    match s with
    | 'n' :: 'u' :: 'l' :: 'l' :: r => some (J.null, r)
    | 't' :: 'r' :: 'u' :: 'e' :: r => some (J.bool true, r)
    | 'f' :: 'a' :: 'l' :: 's' :: 'e' :: r => some (J.bool false, r)
    | '"' :: r => (scanstring r).map (fun p => (J.str p.1, p.2))
    | '{' :: r =>
      match skipWs r with
      | '}' :: r2 => some (J.obj [], r2)
      | r2 => (parseMembers fuel r2).map (fun p => (J.obj p.1, p.2))
    | '[' :: r =>
      match skipWs r with
      | ']' :: r2 => some (J.arr [], r2)
      | r2 => (parseElems fuel r2).map (fun p => (J.arr p.1, p.2))
    | s => parseNumber s

/-- `json.decoder.JSONObject` from the first member on: positioned at the
opening quote of a key, consumes members up to and including the closing
brace. -/
def parseMembers : Nat → List Char → Option (List (List Char × J) × List Char)
  | 0, _ => none
  | fuel + 1, s =>
    match s with
    | '"' :: r =>
      match scanstring r with
      | none => none
      | some (k, r1) =>
        match skipWs r1 with
        | ':' :: r2 =>
          match scan_once fuel (skipWs r2) with
          | none => none
          | some (v, r3) =>
            match skipWs r3 with
            | ',' :: r4 => (parseMembers fuel (skipWs r4)).map (fun p => ((k, v) :: p.1, p.2))
            | '}' :: r4 => some ([(k, v)], r4)
            | _ => none
        | _ => none
    | _ => none

/-- `json.decoder.JSONArray` from the first element on: consumes elements
up to and including the closing bracket. -/
def parseElems : Nat → List Char → Option (List J × List Char)
  | 0, _ => none
  | fuel + 1, s =>
    match scan_once fuel s with
    | none => none
    | some (v, r) =>
      match skipWs r with
      | ',' :: r2 => (parseElems fuel (skipWs r2)).map (fun p => (v :: p.1, p.2))
      | ']' :: r2 => some ([v], r2)
      | _ => none

end

/-- `json.JSONDecoder.raw_decode`: scan one value at index 0; `none`
models the raised `JSONDecodeError`.  The fuel `s.length + 1` is always
sufficient because every recursion step first consumes input. -/
def raw_decode (s : List Char) : Option (J × List Char) :=
  scan_once (s.length + 1) s

/-- Decimal digits of `n`, most significant first, by repeated division;
fueled so that it evaluates by kernel reduction (`n` itself is always
enough fuel).  Produces `[]` for `n = 0`. -/
def encodeNatAux : Nat → Nat → List Char
  | 0, _ => []
  | fuel + 1, n =>
    if n = 0 then [] else encodeNatAux fuel (n / 10) ++ [Nat.digitChar (n % 10)]

/-- Decimal numeral of a natural number. -/
def encodeNat (n : Nat) : List Char :=
  if n = 0 then ['0'] else encodeNatAux n n

/-- Decimal numeral of an integer (as `json.dumps` renders ints). -/
def encodeInt : Int → List Char
  | Int.ofNat n => encodeNat n
  | Int.negSucc m => '-' :: encodeNat (m + 1)

/-- String body with the two escapes `encode` needs; the closing quote is
appended at the end. -/
def encodeStrBody : List Char → List Char
  | [] => '"' :: []
  | c :: r =>
    if c == '"' || c == '\\' then '\\' :: c :: encodeStrBody r
    else c :: encodeStrBody r

def encodeString (s : List Char) : List Char := '"' :: encodeStrBody s

mutual

/-- Compact JSON rendering of a value (as `json.dumps` with empty
separators would produce); used to build the client-side request texts the
framing claims quantify over. -/
def encode : J → List Char
  | J.null => "null".data
  | J.bool true => "true".data
  | J.bool false => "false".data
  | J.num n => encodeInt n
  | J.str s => encodeString s
  | J.arr [] => '[' :: ']' :: []
  | J.arr (v :: vs) => '[' :: (encode v ++ encodeElemsRest vs)
  | J.obj [] => '{' :: '}' :: []
  | J.obj (m :: ms) => '{' :: (encodeMember m ++ encodeMembersRest ms)

def encodeMember : List Char × J → List Char
  | (k, v) => encodeString k ++ ':' :: encode v

def encodeMembersRest : List (List Char × J) → List Char
  | [] => '}' :: []
  | m :: ms => ',' :: (encodeMember m ++ encodeMembersRest ms)

def encodeElemsRest : List J → List Char
  | [] => ']' :: []
  | v :: vs => ',' :: (encode v ++ encodeElemsRest vs)

end

/-- Characters that may appear in the modelled string bodies: printable
ASCII (everything else `json.dumps` would render as a `\uXXXX` escape,
which is outside the fragment). -/
def wfChar (c : Char) : Bool := 0x20 ≤ c.toNat && c.toNat ≤ 0x7e

mutual

/-- Values inside the modelled JSON fragment: all string bodies (keys and
string values) consist of printable ASCII. -/
def wfJ : J → Bool
  | J.null => true
  | J.bool _ => true
  | J.num _ => true
  | J.str s => s.all wfChar
  | J.arr vs => wfListJ vs
  | J.obj ms => wfMembersJ ms

def wfListJ : List J → Bool
  | [] => true
  | v :: vs => wfJ v && wfListJ vs

def wfMembersJ : List (List Char × J) → Bool
  | [] => true
  | m :: ms => m.1.all wfChar && wfJ m.2 && wfMembersJ ms

end

/-- Is the value a JSON object (a JSON-RPC Request is one)? -/
def isObjJ : J → Bool
  | J.obj _ => true
  | _ => false

theorem length_dropWhile_le (p : Char → Bool) :
    ∀ s : List Char, (List.dropWhile p s).length ≤ s.length
  | [] => Nat.le_refl _
  | c :: s => by
    rw [List.dropWhile_cons]
    split
    · exact Nat.le_trans (length_dropWhile_le p s) (Nat.le_succ _)
    · exact Nat.le_refl _

theorem skipWs_length (s : List Char) : (skipWs s).length ≤ s.length :=
  length_dropWhile_le _ s

theorem lstrip_length (s : List Char) : (lstrip s).length ≤ s.length :=
  length_dropWhile_le _ s

theorem munchNum_length : ∀ (s : List Char) (acc : Nat), (munchNum acc s).2.length ≤ s.length
  | [], _ => by simp [munchNum]
  | c :: s, acc => by
    rw [munchNum]
    split
    · exact Nat.le_trans (munchNum_length s _) (Nat.le_succ _)
    · simp

theorem parseUInt_length : ∀ (s : List Char) (n : Nat) (r : List Char),
    parseUInt s = some (n, r) → r.length < s.length := by
  intro s n r h
  unfold parseUInt at h
  split at h
  · rename_i r2
    simp only [Option.some.injEq, Prod.mk.injEq] at h
    simp [← h.2]
  · rename_i c r2 hne
    split at h
    · simp only [Option.some.injEq] at h
      have h2 : (munchNum (c.toNat - 48) r2).2 = r := by rw [h]
      have h3 : r.length ≤ r2.length := h2 ▸ munchNum_length r2 (c.toNat - 48)
      simp only [List.length_cons]
      omega
    · exact absurd h (by simp)
  · exact absurd h (by simp)

theorem parseNumber_length : ∀ (s : List Char) (v : J) (r : List Char),
    parseNumber s = some (v, r) → r.length < s.length := by
  intro s v r h
  unfold parseNumber at h
  split at h
  · rename_i r2
    cases hu : parseUInt r2 with
    | none => rw [hu] at h; simp at h
    | some p =>
      rw [hu] at h
      simp only [Option.map_some', Option.some.injEq, Prod.mk.injEq] at h
      have := parseUInt_length r2 p.1 p.2 (by simpa using hu)
      simp only [← h.2, List.length_cons]
      omega
  · cases hu : parseUInt s with
    | none => rw [hu] at h; simp at h
    | some p =>
      rw [hu] at h
      simp only [Option.map_some', Option.some.injEq, Prod.mk.injEq] at h
      have := parseUInt_length s p.1 p.2 (by simpa using hu)
      simp only [← h.2]
      omega

theorem scanstring_length_aux : ∀ (n : Nat) (s b r : List Char),
    s.length ≤ n → scanstring s = some (b, r) → r.length < s.length
  | 0, s, b, r, hn, h => by
    have : s = [] := by
      cases s with
      | nil => rfl
      | cons c t => simp at hn
    subst this
    simp [scanstring] at h
  | n + 1, s, b, r, hn, h => by
    unfold scanstring at h
    split at h
    · exact absurd h (by simp)
    · rename_i r2
      simp only [Option.some.injEq, Prod.mk.injEq] at h
      simp [← h.2]
    · exact absurd h (by simp)
    · rename_i e r2
      split at h
      · rename_i c hc
        cases hs : scanstring r2 with
        | none => rw [hs] at h; simp at h
        | some p =>
          rw [hs] at h
          simp only [Option.map_some', Option.some.injEq, Prod.mk.injEq] at h
          have hr : p.2.length < r2.length := by
            refine scanstring_length_aux n r2 p.1 p.2 ?_ (by simpa using hs)
            simp at hn
            omega
          simp only [← h.2, List.length_cons]
          omega
      · exact absurd h (by simp)
    · rename_i c r2 h1 h2 h3
      split at h
      · exact absurd h (by simp)
      · cases hs : scanstring r2 with
        | none => rw [hs] at h; simp at h
        | some p =>
          rw [hs] at h
          simp only [Option.map_some', Option.some.injEq, Prod.mk.injEq] at h
          have hr : p.2.length < r2.length := by
            refine scanstring_length_aux n r2 p.1 p.2 ?_ (by simpa using hs)
            simp at hn
            omega
          simp only [← h.2, List.length_cons]
          omega

theorem scanstring_length (s b r : List Char) (h : scanstring s = some (b, r)) :
    r.length < s.length :=
  scanstring_length_aux s.length s b r (Nat.le_refl _) h

mutual

theorem scan_once_length : ∀ (fuel : Nat) (s : List Char) (v : J) (r : List Char),
    scan_once fuel s = some (v, r) → r.length < s.length
  | 0, s, v, r, h => by simp [scan_once] at h
  | fuel + 1, s, v, r, h => by
    unfold scan_once at h
    split at h
    · simp only [Option.some.injEq, Prod.mk.injEq] at h
      simp only [← h.2, List.length_cons]
      omega
    · simp only [Option.some.injEq, Prod.mk.injEq] at h
      simp only [← h.2, List.length_cons]
      omega
    · simp only [Option.some.injEq, Prod.mk.injEq] at h
      simp only [← h.2, List.length_cons]
      omega
    · rename_i r2
      cases hs : scanstring r2 with
      | none => rw [hs] at h; simp at h
      | some p =>
        rw [hs] at h
        simp only [Option.map_some', Option.some.injEq, Prod.mk.injEq] at h
        have := scanstring_length r2 p.1 p.2 (by simpa using hs)
        simp only [← h.2, List.length_cons]
        omega
    · rename_i r2
      split at h
      · rename_i r3 heq
        simp only [Option.some.injEq, Prod.mk.injEq] at h
        have h1 : (skipWs r2).length ≤ r2.length := skipWs_length r2
        rw [heq] at h1
        simp only [← h.2, List.length_cons] at h1 ⊢
        omega
      · cases hm : parseMembers fuel (skipWs r2) with
        | none => rw [hm] at h; simp at h
        | some p =>
          rw [hm] at h
          simp only [Option.map_some', Option.some.injEq, Prod.mk.injEq] at h
          have h1 : (skipWs r2).length ≤ r2.length := skipWs_length r2
          have h2 := parseMembers_length fuel (skipWs r2) p.1 p.2 (by simpa using hm)
          simp only [← h.2, List.length_cons]
          omega
    · rename_i r2
      split at h
      · rename_i r3 heq
        simp only [Option.some.injEq, Prod.mk.injEq] at h
        have h1 : (skipWs r2).length ≤ r2.length := skipWs_length r2
        rw [heq] at h1
        simp only [← h.2, List.length_cons] at h1 ⊢
        omega
      · cases hm : parseElems fuel (skipWs r2) with
        | none => rw [hm] at h; simp at h
        | some p =>
          rw [hm] at h
          simp only [Option.map_some', Option.some.injEq, Prod.mk.injEq] at h
          have h1 : (skipWs r2).length ≤ r2.length := skipWs_length r2
          have h2 := parseElems_length fuel (skipWs r2) p.1 p.2 (by simpa using hm)
          simp only [← h.2, List.length_cons]
          omega
    · exact parseNumber_length _ v r h

theorem parseMembers_length : ∀ (fuel : Nat) (s : List Char) (kvs : List (List Char × J))
    (r : List Char), parseMembers fuel s = some (kvs, r) → r.length < s.length
  | 0, s, kvs, r, h => by simp [parseMembers] at h
  | fuel + 1, s, kvs, r, h => by
    unfold parseMembers at h
    split at h
    · rename_i r2
      split at h
      · simp at h
      · rename_i k r1 hk
        split at h
        · rename_i r3 heq3
          split at h
          · simp at h
          · rename_i v r3' hv
            split at h
            · rename_i r4 heq4
              cases hm : parseMembers fuel (skipWs r4) with
              | none => rw [hm] at h; simp at h
              | some p =>
                rw [hm] at h
                simp only [Option.map_some', Option.some.injEq, Prod.mk.injEq] at h
                have l1 := scanstring_length r2 k r1 hk
                have l2 : (skipWs r1).length ≤ r1.length := skipWs_length r1
                rw [heq3] at l2
                have l3 := scan_once_length fuel (skipWs r3) v r3' hv
                have l4 : (skipWs r3).length ≤ r3.length := skipWs_length r3
                have l5 : (skipWs r3').length ≤ r3'.length := skipWs_length r3'
                rw [heq4] at l5
                have l6 : (skipWs r4).length ≤ r4.length := skipWs_length r4
                have l7 := parseMembers_length fuel (skipWs r4) p.1 p.2 (by simpa using hm)
                simp only [← h.2, List.length_cons] at l2 l5 ⊢
                omega
            · rename_i r4 heq4
              simp only [Option.some.injEq, Prod.mk.injEq] at h
              have l1 := scanstring_length r2 k r1 hk
              have l2 : (skipWs r1).length ≤ r1.length := skipWs_length r1
              rw [heq3] at l2
              have l3 := scan_once_length fuel (skipWs r3) v r3' hv
              have l4 : (skipWs r3).length ≤ r3.length := skipWs_length r3
              have l5 : (skipWs r3').length ≤ r3'.length := skipWs_length r3'
              rw [heq4] at l5
              simp only [← h.2, List.length_cons] at l2 l5 ⊢
              omega
            · simp at h
        · simp at h
    · simp at h

theorem parseElems_length : ∀ (fuel : Nat) (s : List Char) (vs : List J) (r : List Char),
    parseElems fuel s = some (vs, r) → r.length < s.length
  | 0, s, vs, r, h => by simp [parseElems] at h
  | fuel + 1, s, vs, r, h => by
    unfold parseElems at h
    split at h
    · simp at h
    · rename_i v r1 hv
      split at h
      · rename_i r2 heq2
        cases hm : parseElems fuel (skipWs r2) with
        | none => rw [hm] at h; simp at h
        | some p =>
          rw [hm] at h
          simp only [Option.map_some', Option.some.injEq, Prod.mk.injEq] at h
          have l1 := scan_once_length fuel s v r1 hv
          have l2 : (skipWs r1).length ≤ r1.length := skipWs_length r1
          rw [heq2] at l2
          have l3 : (skipWs r2).length ≤ r2.length := skipWs_length r2
          have l4 := parseElems_length fuel (skipWs r2) p.1 p.2 (by simpa using hm)
          simp only [← h.2, List.length_cons] at l2 ⊢
          omega
      · rename_i r2 heq2
        simp only [Option.some.injEq, Prod.mk.injEq] at h
        have l1 := scan_once_length fuel s v r1 hv
        have l2 : (skipWs r1).length ≤ r1.length := skipWs_length r1
        rw [heq2] at l2
        simp only [← h.2, List.length_cons] at l2 ⊢
        omega
      · simp at h

end

/-- `raw_decode` consumes at least one character on success. -/
theorem raw_decode_length (s : List Char) (v : J) (r : List Char)
    (h : raw_decode s = some (v, r)) : r.length < s.length :=
  scan_once_length (s.length + 1) s v r h

/-- Trace events of the two stdio loops (`decoded`/`dispatched`/`written`
for `McpServer.run.read_messages`, `sent`/`received`/`wrote` for
`MCPHTTPBridge.handle_stdio.read_requests`). -/
inductive Ev where
  | decoded (v : J)
  | dispatched (v : J)
  | written (resp : J)
  | sent (v : J)
  | received (resp : J)
  | wrote (resp : J)
  deriving DecidableEq

/-- The inner `while buffer:` loop of both stdio loops: repeatedly
`raw_decode` at the buffer head; on success run the per-message step
(dispatch and write, given as `process`), drop the consumed span and
`lstrip`; on `JSONDecodeError` stop and keep the buffer.  Fueled so it
evaluates by kernel reduction; the buffer length is always enough fuel
because `raw_decode` consumes at least one character. -/
def read_messages_aux (process : J → List Ev) : Nat → List Char → List Ev × List Char
  | 0, buf => ([], buf)
  | fuel + 1, buf =>
    if buf.isEmpty then ([], buf)
    else
      match raw_decode buf with
      | some (v, rest) =>
        let p := read_messages_aux process fuel (lstrip rest)
        (process v ++ p.1, p.2)
      | none => ([], buf)

/-- One draining pass over a buffer. -/
def read_messages (process : J → List Ev) (buf : List Char) : List Ev × List Char :=
  read_messages_aux process buf.length buf

/-- The outer read loop: append each arriving chunk to the carried buffer
and drain; at end of input stop with whatever is left buffered. -/
def run_loop (process : J → List Ev) : List Char → List (List Char) → List Ev × List Char
  | buf, [] => ([], buf)
  | buf, c :: cs =>
    let p := read_messages process (buf ++ c)
    let q := run_loop process p.2 cs
    (p.1 ++ q.1, q.2)

theorem read_messages_aux_congr (process : J → List Ev) :
    ∀ (f g : Nat) (buf : List Char), buf.length ≤ f → buf.length ≤ g →
      read_messages_aux process f buf = read_messages_aux process g buf
  | 0, g, buf, hf, _ => by
    have hb : buf = [] := by
      cases buf with
      | nil => rfl
      | cons a t => simp at hf
    subst hb
    cases g with
    | zero => rfl
    | succ g => simp [read_messages_aux]
  | f + 1, 0, buf, _, hg => by
    have hb : buf = [] := by
      cases buf with
      | nil => rfl
      | cons a t => simp at hg
    subst hb
    simp [read_messages_aux]
  | f + 1, g + 1, buf, hf, hg => by
    unfold read_messages_aux
    by_cases hb : buf.isEmpty = true
    · simp [hb]
    · simp only [hb, if_false, Bool.false_eq_true]
      cases hr : raw_decode buf with
      | none => rfl
      | some p =>
        obtain ⟨v, rest⟩ := p
        have hlen : rest.length < buf.length := raw_decode_length buf v rest hr
        have h2 : (lstrip rest).length ≤ rest.length := lstrip_length rest
        dsimp only
        rw [read_messages_aux_congr process f g (lstrip rest) (by omega) (by omega)]

/-- Unfolding: a buffer whose head does not decode is kept untouched and
nothing is emitted (the loop `break`s on `JSONDecodeError`). -/
theorem read_messages_none (process : J → List Ev) (buf : List Char)
    (h : raw_decode buf = none) : read_messages process buf = ([], buf) := by
  unfold read_messages
  cases hl : buf.length with
  | zero => simp [read_messages_aux]
  | succ n =>
    unfold read_messages_aux
    split
    · rfl
    · rw [h]

/-- Unfolding: a decoded head is processed, the consumed span is dropped,
the rest is `lstrip`ped and draining continues. -/
theorem read_messages_some (process : J → List Ev) (buf : List Char) (v : J)
    (rest : List Char) (h : raw_decode buf = some (v, rest)) :
    read_messages process buf
      = (process v ++ (read_messages process (lstrip rest)).1,
         (read_messages process (lstrip rest)).2) := by
  have hlen : rest.length < buf.length := raw_decode_length buf v rest h
  have h2 : (lstrip rest).length ≤ rest.length := lstrip_length rest
  obtain ⟨n, hn⟩ : ∃ n, buf.length = n + 1 := ⟨buf.length - 1, by omega⟩
  have hne : buf.isEmpty = false := by
    cases buf with
    | nil => simp at hn
    | cons a t => rfl
  have e1 : read_messages process buf = read_messages_aux process (n + 1) buf := by
    unfold read_messages
    rw [hn]
  rw [e1, read_messages_aux, hne, if_neg (by simp), h]
  dsimp only
  have e2 : read_messages_aux process n (lstrip rest) = read_messages process (lstrip rest) := by
    unfold read_messages
    exact read_messages_aux_congr process n _ _ (by omega) (Nat.le_refl _)
  rw [e2]

/-- Python `dict.get` on a decoded JSON object (insertion builds the dict
left to right, so a duplicated key keeps its last value); `none` for a
missing key or a non-dict. -/
def dictGet (m : J) (k : List Char) : Option J :=
  match m with
  | J.obj ms => ms.foldl (fun acc p => if p.1 = k then some p.2 else acc) none
  | _ => none

/-- Python `str()` of the value `request.get("method")` returned, as
interpolated into the "Method not found" message (a missing key gives
`None`; only the string case is exercised by the claims). -/
def pyStr : Option J → List Char
  | none => "None".data
  | some (J.str s) => s
  | some (J.num n) => encodeInt n
  | some (J.bool true) => "True".data
  | some (J.bool false) => "False".data
  | some J.null => "None".data
  | some v => encode v

/-- The handler slots of `McpServer.__init__`.  A handler models the whole
dispatch arm: for `tools/call` and `resources/read` the pydantic request
construction and the handler call are taken together as one function of
the params value, and a raised exception (including a validation error) is
an `Except.error` carrying `str(e)`. -/
structure Handlers where
  tools_handler : Option (Unit → Except (List Char) J)
  call_tool_handler : Option (J → Except (List Char) J)
  resources_handler : Option (Unit → Except (List Char) J)
  read_resource_handler : Option (J → Except (List Char) J)

/-- `McpServer.__init__`: all four handler slots start empty. -/
def McpServer_init : Handlers := ⟨none, none, none, none⟩

/-- The `list_tools` decorator: bind (overwrite) the tools handler. -/
def list_tools (f : Unit → Except (List Char) J) (h : Handlers) : Handlers :=
  { h with tools_handler := some f }

/-- The `call_tool` decorator. -/
def call_tool (f : J → Except (List Char) J) (h : Handlers) : Handlers :=
  { h with call_tool_handler := some f }

/-- The `list_resources` decorator. -/
def list_resources (f : Unit → Except (List Char) J) (h : Handlers) : Handlers :=
  { h with resources_handler := some f }

/-- The `read_resource` decorator. -/
def read_resource (f : J → Except (List Char) J) (h : Handlers) : Handlers :=
  { h with read_resource_handler := some f }

/-- The success envelope literal of `handle_request`. -/
def okResponse (request_id : J) (result : J) : J :=
  J.obj [("jsonrpc".data, J.str "2.0".data), ("id".data, request_id),
         ("result".data, result)]

/-- The error envelope literal of `handle_request` (and of the bridge). -/
def errResponse (request_id : J) (code : Int) (msg : List Char) : J :=
  J.obj [("jsonrpc".data, J.str "2.0".data), ("id".data, request_id),
         ("error".data,
          J.obj [("code".data, J.num code), ("message".data, J.str msg)])]

/-- `McpServer.handle_request`: route on `request.get("method")`; a
matching method with a bound handler runs it inside the `try`, a raised
fault becomes a `-32603` envelope, everything else falls through to the
`-32601` envelope.  `request.get("id")` (default `None`) is echoed. -/
def handle_request (h : Handlers) (request : J) : J :=
  let method := dictGet request "method".data
  let params := (dictGet request "params".data).getD (J.obj [])
  let request_id := (dictGet request "id".data).getD J.null
  let notFound : J :=
    errResponse request_id (-32601) ("Method not found: ".data ++ pyStr method)
  match method with
  | some (J.str m) =>
    if m = "tools/list".data then
      match h.tools_handler with
      | some f =>
        match f () with
        | Except.ok result => okResponse request_id result
        | Except.error e => errResponse request_id (-32603) ("Internal error: ".data ++ e)
      | none => notFound
    else if m = "tools/call".data then
      match h.call_tool_handler with
      | some f =>
        match f params with
        | Except.ok result => okResponse request_id result
        | Except.error e => errResponse request_id (-32603) ("Internal error: ".data ++ e)
      | none => notFound
    else if m = "resources/list".data then
      match h.resources_handler with
      | some f =>
        match f () with
        | Except.ok result => okResponse request_id result
        | Except.error e => errResponse request_id (-32603) ("Internal error: ".data ++ e)
      | none => notFound
    else if m = "resources/read".data then
      match h.read_resource_handler with
      | some f =>
        match f params with
        | Except.ok result => okResponse request_id result
        | Except.error e => errResponse request_id (-32603) ("Internal error: ".data ++ e)
      | none => notFound
    else notFound
  | _ => notFound

/-- Per-message step of `McpServer.run.read_messages`: decode, dispatch
(`await self.handle_request(obj)`), then `print(..., flush=True)` the
response, in that order, before the loop continues. -/
def server_step (h : Handlers) (v : J) : List Ev :=
  [Ev.decoded v, Ev.dispatched v, Ev.written (handle_request h v)]

/-- The downstream outcome of one forwarded call in
`MCPHTTPBridge.forward_request`: an HTTP exchange that completed with a
status and a body (whose JSON decoding may itself fail), an
`asyncio.TimeoutError`, or any other raised failure. -/
inductive DownstreamOutcome where
  | response (status : Nat) (body : Except (List Char) J)
  | timeout
  | failure (e : List Char)

/-- `aiohttp.ClientTimeout(total=30)` passed on every forwarded post. -/
def bridge_timeout_seconds : Nat := 30

/-- `MCPHTTPBridge.forward_request`: status 200 relays the decoded body;
any other status, a timeout, or any raised failure synthesizes a `-32603`
envelope echoing `mcp_request.get("id")`. -/
def forward_request (downstream : DownstreamOutcome) (mcp_request : J) : J :=
  let request_id := (dictGet mcp_request "id".data).getD J.null
  match downstream with
  | DownstreamOutcome.response 200 (Except.ok body) => body
  | DownstreamOutcome.response 200 (Except.error e) =>
    errResponse request_id (-32603) ("Bridge error: ".data ++ e)
  | DownstreamOutcome.response status _ =>
    errResponse request_id (-32603) ("HTTP Error: ".data ++ encodeNat status)
  | DownstreamOutcome.timeout =>
    errResponse request_id (-32603) ("Request timeout".data)
  | DownstreamOutcome.failure e =>
    errResponse request_id (-32603) ("Bridge error: ".data ++ e)

/-- Per-message step of `MCPHTTPBridge.handle_stdio.read_requests`: the
decoded request is sent downstream, its response awaited
(`await self.forward_request(request)`), and printed, before the loop
touches the next message.  `downstream` gives each request's outcome. -/
def bridge_step (downstream : J → DownstreamOutcome) (v : J) : List Ev :=
  [Ev.sent v, Ev.received (forward_request (downstream v) v),
   Ev.wrote (forward_request (downstream v) v)]

/-- The decoded messages of a trace. -/
def decodedOf (tr : List Ev) : List J :=
  tr.filterMap fun e =>
    match e with
    | Ev.decoded v => some v
    | _ => none

/-- The responses written by the server loop, in order. -/
def writtenOf (tr : List Ev) : List J :=
  tr.filterMap fun e =>
    match e with
    | Ev.written r => some r
    | _ => none

/-- The responses written by the bridge loop, in order. -/
def wroteOf (tr : List Ev) : List J :=
  tr.filterMap fun e =>
    match e with
    | Ev.wrote r => some r
    | _ => none

def isDispatchedEv : Ev → Bool
  | Ev.dispatched _ => true
  | _ => false

def isWrittenEv : Ev → Bool
  | Ev.written _ => true
  | _ => false

/-- How many dispatches have started within a trace fragment. -/
def countDispatched (tr : List Ev) : Nat := (tr.filter isDispatchedEv).length

/-- How many responses have been written within a trace fragment. -/
def countWritten (tr : List Ev) : Nat := (tr.filter isWrittenEv).length

mutual

theorem scan_once_mono : ∀ (f : Nat) (s : List Char) (x : J × List Char),
    scan_once f s = some x → scan_once (f + 1) s = some x
  | 0, s, x, h => by simp [scan_once] at h
  | f + 1, s, x, h => by
    unfold scan_once at h ⊢
    split at h
    · exact h
    · exact h
    · exact h
    · exact h
    · rename_i r2
      split at h
      · exact h
      · cases hm : parseMembers f (skipWs r2) with
        | none => rw [hm] at h; simp at h
        | some p =>
          rw [hm] at h
          rw [parseMembers_mono f (skipWs r2) p hm]
          exact h
    · rename_i r2
      split at h
      · exact h
      · cases hm : parseElems f (skipWs r2) with
        | none => rw [hm] at h; simp at h
        | some p =>
          rw [hm] at h
          rw [parseElems_mono f (skipWs r2) p hm]
          exact h
    · exact h

theorem parseMembers_mono : ∀ (f : Nat) (s : List Char) (x : List (List Char × J) × List Char),
    parseMembers f s = some x → parseMembers (f + 1) s = some x
  | 0, s, x, h => by simp [parseMembers] at h
  | f + 1, s, x, h => by
    unfold parseMembers at h ⊢
    split at h
    · split at h
      · simp at h
      · split at h
        · rename_i r2 heq2
          cases hv0 : scan_once f (skipWs r2) with
          | none => rw [hv0] at h; simp at h
          | some pv =>
            obtain ⟨v, r3⟩ := pv
            rw [hv0] at h
            rw [scan_once_mono f (skipWs r2) (v, r3) hv0]
            dsimp only at h ⊢
            split at h
            · rename_i r4 heq4
              cases hm : parseMembers f (skipWs r4) with
              | none => rw [hm] at h; simp at h
              | some pm =>
                rw [hm] at h
                rw [parseMembers_mono f (skipWs r4) pm hm]
                exact h
            · exact h
            · simp at h
        · simp at h
    · simp at h

theorem parseElems_mono : ∀ (f : Nat) (s : List Char) (x : List J × List Char),
    parseElems f s = some x → parseElems (f + 1) s = some x
  | 0, s, x, h => by simp [parseElems] at h
  | f + 1, s, x, h => by
    unfold parseElems at h ⊢
    cases hv0 : scan_once f s with
    | none => rw [hv0] at h; simp at h
    | some pv =>
      obtain ⟨v, r1⟩ := pv
      rw [hv0] at h
      rw [scan_once_mono f s (v, r1) hv0]
      dsimp only at h ⊢
      split at h
      · rename_i r2 heq2
        cases hm : parseElems f (skipWs r2) with
        | none => rw [hm] at h; simp at h
        | some pm =>
          rw [hm] at h
          rw [parseElems_mono f (skipWs r2) pm hm]
          exact h
      · exact h
      · simp at h

end

theorem scan_once_mono_le {f g : Nat} (s : List Char) (x : J × List Char)
    (hfg : f ≤ g) (h : scan_once f s = some x) : scan_once g s = some x := by
  induction hfg with
  | refl => exact h
  | step _ ih => exact scan_once_mono _ s x ih

/-- Does the text not begin with a decimal digit?  (Guard needed after a
bare numeral: the scanner's maximal munch would otherwise continue into
the following text.) -/
def notDigitStart : List Char → Bool
  | [] => true
  | c :: _ => !isDigitChar c

def isNumJ : J → Bool
  | J.num _ => true
  | _ => false

theorem munchNum_stop (acc : Nat) (t : List Char) (h : notDigitStart t = true) :
    munchNum acc t = (acc, t) := by
  cases t with
  | nil => simp [munchNum]
  | cons c r =>
    simp only [notDigitStart, Bool.not_eq_true'] at h
    simp [munchNum, h]

theorem digitChar_spec (d : Nat) (hd : d < 10) :
    isDigitChar (Nat.digitChar d) = true ∧ (Nat.digitChar d).toNat = 48 + d := by
  interval_cases d <;> exact ⟨by decide, by decide⟩

theorem digitChar_pos_spec (d : Nat) (h1 : 1 ≤ d) (h9 : d ≤ 9) :
    ('1' ≤ Nat.digitChar d ∧ Nat.digitChar d ≤ '9') ∧ Nat.digitChar d ≠ '0' := by
  interval_cases d <;> exact ⟨⟨by decide, by decide⟩, by decide⟩

theorem encodeNatAux_zero : ∀ fuel : Nat, encodeNatAux fuel 0 = []
  | 0 => rfl
  | fuel + 1 => by simp [encodeNatAux]

theorem munchNum_encodeNatAux : ∀ (fuel n acc : Nat) (t : List Char), n ≤ fuel →
    munchNum acc (encodeNatAux fuel n ++ t)
      = munchNum (acc * 10 ^ (encodeNatAux fuel n).length + n) t
  | 0, n, acc, t, hn => by
    have : n = 0 := by omega
    subst this
    simp [encodeNatAux]
  | fuel + 1, n, acc, t, hn => by
    by_cases h0 : n = 0
    · subst h0
      simp [encodeNatAux]
    · have hdig : n % 10 < 10 := Nat.mod_lt n (by omega)
      obtain ⟨hd1, hd2⟩ := digitChar_spec (n % 10) hdig
      have hrec : n / 10 ≤ fuel := by omega
      unfold encodeNatAux
      rw [if_neg h0, List.append_assoc,
        munchNum_encodeNatAux fuel (n / 10) acc ([Nat.digitChar (n % 10)] ++ t) hrec]
      simp only [List.cons_append, List.nil_append]
      rw [munchNum, if_pos hd1, hd2]
      have hlen : (encodeNatAux fuel (n / 10) ++ [Nat.digitChar (n % 10)]).length
          = (encodeNatAux fuel (n / 10)).length + 1 := by simp
      rw [hlen, pow_succ, ← Nat.mul_assoc]
      have harith : 10 * (acc * 10 ^ (encodeNatAux fuel (n / 10)).length + n / 10)
            + (48 + n % 10 - 48)
          = acc * 10 ^ (encodeNatAux fuel (n / 10)).length * 10 + n := by
        omega
      rw [harith]

theorem encodeNatAux_head : ∀ (fuel n : Nat), n ≠ 0 → n ≤ fuel →
    ∃ d r, encodeNatAux fuel n = Nat.digitChar d :: r ∧ 1 ≤ d ∧ d ≤ 9
  | 0, n, h0, hn => by omega
  | fuel + 1, n, h0, hn => by
    unfold encodeNatAux
    rw [if_neg h0]
    by_cases hq : n / 10 = 0
    · rw [hq, encodeNatAux_zero]
      refine ⟨n % 10, [], by simp, by omega, by omega⟩
    · obtain ⟨d, r, he, h1, h9⟩ := encodeNatAux_head fuel (n / 10) hq (by omega)
      exact ⟨d, r ++ [Nat.digitChar (n % 10)], by rw [he]; simp, h1, h9⟩

theorem encodeNat_head (n : Nat) :
    ∃ c r, encodeNat n = c :: r ∧ isDigitChar c = true ∧ c ≠ '-' := by
  by_cases h0 : n = 0
  · subst h0
    exact ⟨'0', [], rfl, by decide, by decide⟩
  · obtain ⟨d, r, he, h1, h9⟩ := encodeNatAux_head n n h0 (Nat.le_refl n)
    refine ⟨Nat.digitChar d, r, ?_, (digitChar_spec d (by omega)).1, ?_⟩
    · rw [encodeNat, if_neg h0, he]
    · intro hc
      have := (digitChar_spec d (by omega)).1
      rw [hc] at this
      exact absurd this (by decide)

theorem parseUInt_encodeNat (n : Nat) (t : List Char) (ht : notDigitStart t = true) :
    parseUInt (encodeNat n ++ t) = some (n, t) := by
  by_cases h0 : n = 0
  · subst h0
    show parseUInt (('0' :: []) ++ t) = some (0, t)
    rw [List.cons_append, List.nil_append]
    rfl
  · obtain ⟨d, r, he, h1, h9⟩ := encodeNatAux_head n n h0 (Nat.le_refl n)
    obtain ⟨⟨hc1, hc9⟩, hc0⟩ := digitChar_pos_spec d h1 h9
    obtain ⟨hdig, htoNat⟩ := digitChar_spec d (by omega)
    have hm := munchNum_encodeNatAux n n 0 t (Nat.le_refl n)
    rw [munchNum_stop _ t ht] at hm
    rw [Nat.zero_mul, Nat.zero_add] at hm
    rw [he, List.cons_append, munchNum, if_pos hdig, htoNat] at hm
    have hmd : munchNum d (r ++ t) = (n, t) := by
      have : 10 * 0 + (48 + d - 48) = d := by omega
      rw [this] at hm
      exact hm
    rw [encodeNat, if_neg h0, he, List.cons_append]
    unfold parseUInt
    split
    · rename_i r2 heq
      rw [List.cons.injEq] at heq
      exact absurd heq.1 hc0
    · rename_i c r2 hne heq
      rw [List.cons.injEq] at heq
      obtain ⟨hcd, hr2⟩ := heq
      subst hcd
      rw [if_pos (by rw [Bool.and_eq_true]; exact ⟨by simpa using hc1, by simpa using hc9⟩)]
      rw [← hr2, htoNat]
      have : 48 + d - 48 = d := by omega
      rw [this, hmd]
    · rename_i heq
      simp at heq

theorem parseNumber_encodeInt (i : Int) (t : List Char) (ht : notDigitStart t = true) :
    parseNumber (encodeInt i ++ t) = some (J.num i, t) := by
  cases i with
  | ofNat n =>
    obtain ⟨c, r, he, hdig, hnotminus⟩ := encodeNat_head n
    show parseNumber (encodeNat n ++ t) = some (J.num (Int.ofNat n), t)
    unfold parseNumber
    split
    · rename_i r2 heq
      rw [he, List.cons_append, List.cons.injEq] at heq
      exact absurd heq.1 hnotminus
    · rw [parseUInt_encodeNat n t ht]
      simp [Int.ofNat_eq_coe]
  | negSucc m =>
    show parseNumber (('-' :: encodeNat (m + 1)) ++ t) = _
    rw [List.cons_append]
    unfold parseNumber
    split
    · rename_i r2 heq
      rw [List.cons.injEq] at heq
      rw [← heq.2, parseUInt_encodeNat (m + 1) t ht]
      simp only [Option.map_some', Option.some.injEq, Prod.mk.injEq]
      refine ⟨?_, trivial⟩
      congr 1
    · rename_i hne
      exact absurd rfl (hne (encodeNat (m + 1) ++ t))

theorem wfChar_not_ctrl (c : Char) (h : wfChar c = true) : ¬ c.toNat < 0x20 := by
  rw [wfChar, Bool.and_eq_true] at h
  obtain ⟨h1, _⟩ := h
  simp only [decide_eq_true_eq] at h1
  omega

theorem scanstring_encodeStrBody : ∀ (s t : List Char), s.all wfChar = true →
    scanstring (encodeStrBody s ++ t) = some (s, t)
  | [], t, _ => by
    show scanstring (('"' :: []) ++ t) = some ([], t)
    rw [List.cons_append, List.nil_append]
    rfl
  | c :: r, t, hwf => by
    rw [List.all_cons, Bool.and_eq_true] at hwf
    obtain ⟨hc, hr⟩ := hwf
    unfold encodeStrBody
    by_cases hesc : (c == '"' || c == '\\') = true
    · rw [if_pos hesc]
      rw [List.cons_append, List.cons_append]
      have hu : unescapeChar c = some c := by
        rw [Bool.or_eq_true] at hesc
        rcases hesc with h1 | h1 <;> rw [eq_of_beq h1] <;> rfl
      rw [scanstring, hu]
      dsimp only
      rw [scanstring_encodeStrBody r t hr]
      rfl
    · rw [if_neg hesc]
      rw [List.cons_append]
      rw [Bool.or_eq_true, not_or] at hesc
      obtain ⟨hne1, hne2⟩ := hesc
      have hne1' : c ≠ '"' := fun hx => hne1 (by rw [hx]; rfl)
      have hne2' : c ≠ '\\' := fun hx => hne2 (by rw [hx]; rfl)
      unfold scanstring
      split
      · rename_i heq
        simp at heq
      · rename_i heq
        rw [List.cons.injEq] at heq
        exact absurd heq.1 hne1'
      · rename_i heq
        rw [List.cons.injEq] at heq
        exact absurd heq.1 hne2'
      · rename_i heq
        rw [List.cons.injEq] at heq
        exact absurd heq.1 hne2'
      · rename_i heq
        rw [List.cons.injEq] at heq
        obtain ⟨h1, h2⟩ := heq
        subst h1
        subst h2
        rw [if_neg (wfChar_not_ctrl c hc)]
        rw [scanstring_encodeStrBody r t hr]
        rfl

theorem isDigitChar_not_ws (c : Char) (h : isDigitChar c = true) :
    isJsonWs c = false ∧ isPyWs c = false := by
  rw [isDigitChar, Bool.and_eq_true] at h
  obtain ⟨h1, h2⟩ := h
  simp only [decide_eq_true_eq, Char.le_def] at h1 h2
  constructor
  · rw [isJsonWs]
    simp only [Bool.or_eq_false_iff, beq_eq_false_iff_ne, ne_eq]
    refine ⟨⟨⟨?_, ?_⟩, ?_⟩, ?_⟩ <;> intro hx <;> subst hx <;> simp_all
  · rw [isPyWs, isJsonWs]
    simp only [Bool.or_eq_false_iff, beq_eq_false_iff_ne, ne_eq]
    refine ⟨⟨⟨⟨⟨?_, ?_⟩, ?_⟩, ?_⟩, ?_⟩, ?_⟩ <;> intro hx <;> subst hx <;> simp_all

theorem isDigitChar_ne_brackets (c : Char) (h : isDigitChar c = true) :
    c ≠ ']' ∧ c ≠ '}' := by
  constructor <;> intro hx <;> rw [hx] at h <;> exact absurd h (by decide)

theorem encode_head : ∀ v : J, ∃ c r, encode v = c :: r ∧ isJsonWs c = false ∧
    isPyWs c = false ∧ c ≠ ']' ∧ c ≠ '}'
  | J.null => ⟨'n', ['u', 'l', 'l'], rfl, by decide, by decide, by decide, by decide⟩
  | J.bool true => ⟨'t', ['r', 'u', 'e'], rfl, by decide, by decide, by decide, by decide⟩
  | J.bool false => ⟨'f', ['a', 'l', 's', 'e'], rfl, by decide, by decide, by decide, by decide⟩
  | J.num (Int.ofNat n) => by
    obtain ⟨c, r, he, hdig, _⟩ := encodeNat_head n
    obtain ⟨hw1, hw2⟩ := isDigitChar_not_ws c hdig
    obtain ⟨hb1, hb2⟩ := isDigitChar_ne_brackets c hdig
    exact ⟨c, r, he, hw1, hw2, hb1, hb2⟩
  | J.num (Int.negSucc m) =>
    ⟨'-', encodeNat (m + 1), rfl, by decide, by decide, by decide, by decide⟩
  | J.str s => ⟨'"', encodeStrBody s, rfl, by decide, by decide, by decide, by decide⟩
  | J.arr [] => ⟨'[', [']'], rfl, by decide, by decide, by decide, by decide⟩
  | J.arr (v :: vs) =>
    ⟨'[', encode v ++ encodeElemsRest vs, rfl, by decide, by decide, by decide, by decide⟩
  | J.obj [] => ⟨'{', ['}'], rfl, by decide, by decide, by decide, by decide⟩
  | J.obj (m :: ms) =>
    ⟨'{', encodeMember m ++ encodeMembersRest ms, rfl, by decide, by decide, by decide, by decide⟩

theorem skipWs_cons_neg (c : Char) (r : List Char) (h : isJsonWs c = false) :
    skipWs (c :: r) = c :: r := by
  rw [skipWs, List.dropWhile_cons_of_neg]
  rw [h]
  exact Bool.false_ne_true

theorem lstrip_cons_neg (c : Char) (r : List Char) (h : isPyWs c = false) :
    lstrip (c :: r) = c :: r := by
  rw [lstrip, List.dropWhile_cons_of_neg]
  rw [h]
  exact Bool.false_ne_true

/-- The compact encoding starts with a non-whitespace character, so the
scanner's internal whitespace skipping never moves past it. -/
theorem skipWs_encode_append (v : J) (t : List Char) :
    skipWs (encode v ++ t) = encode v ++ t := by
  obtain ⟨c, r, he, hw, _⟩ := encode_head v
  rw [he, List.cons_append]
  exact skipWs_cons_neg c (r ++ t) hw

theorem lstrip_encode_append (v : J) (t : List Char) :
    lstrip (encode v ++ t) = encode v ++ t := by
  obtain ⟨c, r, he, _, hw, _⟩ := encode_head v
  rw [he, List.cons_append]
  exact lstrip_cons_neg c (r ++ t) hw

theorem encode_length_pos (v : J) : 1 ≤ (encode v).length := by
  obtain ⟨c, r, he, _, _⟩ := encode_head v
  rw [he]
  simp

theorem encodeMember_head (m : List Char × J) :
    encodeMember m = '"' :: (encodeStrBody m.1 ++ (':' :: encode m.2)) := by
  obtain ⟨k, v⟩ := m
  show encodeString k ++ ':' :: encode v = _
  rw [encodeString, List.cons_append]

theorem encodeMember_length (m : List Char × J) :
    (encodeMember m).length = (encodeStrBody m.1).length + (encode m.2).length + 2 := by
  rw [encodeMember_head]
  simp
  omega

theorem notDigitStart_membersRest (ms : List (List Char × J)) (t : List Char) :
    notDigitStart (encodeMembersRest ms ++ t) = true := by
  cases ms with
  | nil => rfl
  | cons m ms => rfl

theorem notDigitStart_elemsRest (vs : List J) (t : List Char) :
    notDigitStart (encodeElemsRest vs ++ t) = true := by
  cases vs with
  | nil => rfl
  | cons v vs => rfl

theorem wfJ_str (s : List Char) (h : wfJ (J.str s) = true) : s.all wfChar = true := h

theorem wfJ_arr_cons (v : J) (vs : List J) (h : wfJ (J.arr (v :: vs)) = true) :
    wfJ v = true ∧ wfJ (J.arr vs) = true := by
  have h2 : wfListJ (v :: vs) = true := h
  rw [wfListJ, Bool.and_eq_true] at h2
  exact ⟨h2.1, h2.2⟩

theorem wfJ_obj_cons (m : List Char × J) (ms : List (List Char × J))
    (h : wfJ (J.obj (m :: ms)) = true) :
    m.1.all wfChar = true ∧ wfJ m.2 = true ∧ wfJ (J.obj ms) = true := by
  have h2 : wfMembersJ (m :: ms) = true := h
  rw [wfMembersJ] at h2
  rw [Bool.and_eq_true, Bool.and_eq_true] at h2
  exact ⟨h2.1.1, h2.1.2, h2.2⟩

theorem encodeInt_head (i : Int) :
    ∃ c r, encodeInt i = c :: r ∧ (c = '-' ∨ isDigitChar c = true) := by
  cases i with
  | ofNat n =>
    obtain ⟨c, r, he, hd, _⟩ := encodeNat_head n
    exact ⟨c, r, he, Or.inr hd⟩
  | negSucc m => exact ⟨'-', encodeNat (m + 1), rfl, Or.inl rfl⟩

theorem skipWs_member_append (m : List Char × J) (x : List Char) :
    skipWs (encodeMember m ++ x) = encodeMember m ++ x := by
  rw [encodeMember_head, List.cons_append]
  exact skipWs_cons_neg _ _ (by decide)

mutual

theorem scan_once_encode : ∀ (fuel : Nat) (v : J) (t : List Char),
    wfJ v = true → (encode v).length ≤ fuel →
    (isNumJ v = true → notDigitStart t = true) →
    scan_once fuel (encode v ++ t) = some (v, t)
  | 0, v, t, _, hf, _ => by
    have := encode_length_pos v
    omega
  | fuel + 1, v, t, hwf, hf, hd => by
    cases v with
    | null => rfl
    | bool b => cases b <;> rfl
    | num i =>
      have ht : notDigitStart t = true := hd rfl
      obtain ⟨c, r, he, hc⟩ := encodeInt_head i
      have hne : ∀ x : Char, isDigitChar x = false → x ≠ '-' → c ≠ x := by
        intro x hx1 hx2 hcx
        rcases hc with hc | hc
        · exact hx2 (hcx.symm.trans hc)
        · rw [hcx] at hc
          exact absurd hc (by simp [hx1])
      show scan_once (fuel + 1) (encodeInt i ++ t) = some (J.num i, t)
      unfold scan_once
      split
      · rename_i heq
        rw [he, List.cons_append, List.cons.injEq] at heq
        exact absurd heq.1 (hne 'n' (by decide) (by decide))
      · rename_i heq
        rw [he, List.cons_append, List.cons.injEq] at heq
        exact absurd heq.1 (hne 't' (by decide) (by decide))
      · rename_i heq
        rw [he, List.cons_append, List.cons.injEq] at heq
        exact absurd heq.1 (hne 'f' (by decide) (by decide))
      · rename_i heq
        rw [he, List.cons_append, List.cons.injEq] at heq
        exact absurd heq.1 (hne '"' (by decide) (by decide))
      · rename_i heq
        rw [he, List.cons_append, List.cons.injEq] at heq
        exact absurd heq.1 (hne '{' (by decide) (by decide))
      · rename_i heq
        rw [he, List.cons_append, List.cons.injEq] at heq
        exact absurd heq.1 (hne '[' (by decide) (by decide))
      · exact parseNumber_encodeInt i t ht
    | str s =>
      have hs : s.all wfChar = true := hwf
      show scan_once (fuel + 1) (('"' :: encodeStrBody s) ++ t) = some (J.str s, t)
      rw [List.cons_append, scan_once, scanstring_encodeStrBody s t hs]
      rfl
    | arr es =>
      cases es with
      | nil => rfl
      | cons v vs =>
        obtain ⟨h1, h2⟩ := wfJ_arr_cons v vs hwf
        have hlen : (encode v).length + (encodeElemsRest vs).length ≤ fuel := by
          simp only [encode, List.length_cons, List.length_append] at hf
          omega
        show scan_once (fuel + 1) (('[' :: (encode v ++ encodeElemsRest vs)) ++ t)
            = some (J.arr (v :: vs), t)
        rw [List.cons_append, scan_once, List.append_assoc,
          skipWs_encode_append v (encodeElemsRest vs ++ t)]
        split
        · rename_i r2 heq
          obtain ⟨c, r, he, hw1, hw2, hb1, hb2⟩ := encode_head v
          rw [he, List.cons_append, List.cons.injEq] at heq
          exact absurd heq.1 hb1
        · rw [parseElems_encode fuel v vs t h1 h2 hlen]
          rfl
    | obj ms =>
      cases ms with
      | nil => rfl
      | cons m ms =>
        obtain ⟨hk, hv, hms⟩ := wfJ_obj_cons m ms hwf
        have hlen : (encodeMember m).length + (encodeMembersRest ms).length ≤ fuel := by
          simp only [encode, List.length_cons, List.length_append] at hf
          omega
        show scan_once (fuel + 1) (('{' :: (encodeMember m ++ encodeMembersRest ms)) ++ t)
            = some (J.obj (m :: ms), t)
        rw [List.cons_append, scan_once, List.append_assoc,
          skipWs_member_append m (encodeMembersRest ms ++ t)]
        split
        · rename_i r2 heq
          rw [encodeMember_head, List.cons_append, List.cons.injEq] at heq
          exact absurd heq.1 (by decide)
        · rw [parseMembers_encode fuel m ms t hk hv hms hlen]
          rfl

theorem parseMembers_encode : ∀ (fuel : Nat) (m : List Char × J)
    (ms : List (List Char × J)) (t : List Char),
    m.1.all wfChar = true → wfJ m.2 = true → wfJ (J.obj ms) = true →
    (encodeMember m).length + (encodeMembersRest ms).length ≤ fuel →
    parseMembers fuel (encodeMember m ++ (encodeMembersRest ms ++ t)) = some (m :: ms, t)
  | 0, m, ms, t, _, _, _, hb => by
    have := encodeMember_length m
    have := encode_length_pos m.2
    omega
  | fuel + 1, m, ms, t, hk, hv, hms, hb => by
    have hml := encodeMember_length m
    have hvpos := encode_length_pos m.2
    rw [encodeMember_head, List.cons_append, List.append_assoc, List.cons_append]
    rw [parseMembers]
    rw [scanstring_encodeStrBody m.1 (':' :: (encode m.2 ++ (encodeMembersRest ms ++ t))) hk]
    dsimp only
    rw [skipWs_cons_neg ':' _ (by decide)]
    split
    · rename_i r2 heq
      rw [List.cons.injEq] at heq
      obtain ⟨-, h2⟩ := heq
      subst h2
      rw [skipWs_encode_append m.2 (encodeMembersRest ms ++ t)]
      rw [scan_once_encode fuel m.2 (encodeMembersRest ms ++ t) hv (by omega)
        (fun _ => notDigitStart_membersRest ms t)]
      dsimp only
      cases ms with
      | nil =>
        rw [show encodeMembersRest ([] : List (List Char × J)) ++ t = '}' :: t from rfl]
        rw [skipWs_cons_neg '}' t (by decide)]
        rfl
      | cons m2 ms2 =>
        obtain ⟨hk2, hv2, hms2⟩ := wfJ_obj_cons m2 ms2 hms
        have hlen2 : (encodeMember m2).length + (encodeMembersRest ms2).length ≤ fuel := by
          have hcons : (encodeMembersRest (m2 :: ms2)).length
              = 1 + ((encodeMember m2).length + (encodeMembersRest ms2).length) := by
            simp [encodeMembersRest]
            omega
          omega
        rw [show encodeMembersRest (m2 :: ms2) ++ t
            = ',' :: ((encodeMember m2 ++ encodeMembersRest ms2) ++ t) from rfl]
        rw [skipWs_cons_neg ',' _ (by decide)]
        split
        · rename_i r4 heq4
          rw [List.cons.injEq] at heq4
          obtain ⟨-, h4⟩ := heq4
          subst h4
          rw [List.append_assoc, skipWs_member_append m2 (encodeMembersRest ms2 ++ t)]
          rw [parseMembers_encode fuel m2 ms2 t hk2 hv2 hms2 hlen2]
          rfl
        · rename_i r4 heq4
          rw [List.cons.injEq] at heq4
          exact absurd heq4.1 (by decide)
        · rename_i hc1 hc2
          exact absurd rfl (hc1 _)
    · rename_i hcond
      exact absurd rfl (hcond _)

theorem parseElems_encode : ∀ (fuel : Nat) (v : J) (vs : List J) (t : List Char),
    wfJ v = true → wfJ (J.arr vs) = true →
    (encode v).length + (encodeElemsRest vs).length ≤ fuel →
    parseElems fuel (encode v ++ (encodeElemsRest vs ++ t)) = some (v :: vs, t)
  | 0, v, vs, t, _, _, hb => by
    have := encode_length_pos v
    have : 1 ≤ (encodeElemsRest vs).length := by cases vs <;> simp [encodeElemsRest]
    omega
  | fuel + 1, v, vs, t, hv, hvs, hb => by
    have hvpos := encode_length_pos v
    have herpos : 1 ≤ (encodeElemsRest vs).length := by cases vs <;> simp [encodeElemsRest]
    rw [parseElems]
    rw [scan_once_encode fuel v (encodeElemsRest vs ++ t) hv (by omega)
      (fun _ => notDigitStart_elemsRest vs t)]
    dsimp only
    cases vs with
    | nil =>
      rw [show encodeElemsRest ([] : List J) ++ t = ']' :: t from rfl]
      rw [skipWs_cons_neg ']' t (by decide)]
      rfl
    | cons v2 vs2 =>
      obtain ⟨hv2, hvs2⟩ := wfJ_arr_cons v2 vs2 hvs
      have hlen2 : (encode v2).length + (encodeElemsRest vs2).length ≤ fuel := by
        have hcons : (encodeElemsRest (v2 :: vs2)).length
            = 1 + ((encode v2).length + (encodeElemsRest vs2).length) := by
          simp [encodeElemsRest]
          omega
        omega
      rw [show encodeElemsRest (v2 :: vs2) ++ t
          = ',' :: ((encode v2 ++ encodeElemsRest vs2) ++ t) from rfl]
      rw [skipWs_cons_neg ',' _ (by decide)]
      split
      · rename_i r2 heq2
        rw [List.cons.injEq] at heq2
        obtain ⟨-, h2⟩ := heq2
        subst h2
        rw [List.append_assoc, skipWs_encode_append v2 (encodeElemsRest vs2 ++ t)]
        rw [parseElems_encode fuel v2 vs2 t hv2 hvs2 hlen2]
        rfl
      · rename_i r2 heq2
        rw [List.cons.injEq] at heq2
        exact absurd heq2.1 (by decide)
      · rename_i hc1 hc2
        exact absurd rfl (hc1 _)

end

/-- Completeness of the scanner on encoded objects: a complete encoded
JSON-RPC message at the buffer head is decoded exactly, whatever follows. -/
theorem raw_decode_encode_obj (ms : List (List Char × J)) (t : List Char)
    (hwf : wfJ (J.obj ms) = true) :
    raw_decode (encode (J.obj ms) ++ t) = some (J.obj ms, t) := by
  rw [raw_decode]
  refine scan_once_encode _ (J.obj ms) t hwf ?_ (by intro h; simp [isNumJ] at h)
  simp only [List.length_append]
  omega

theorem munchNum_append : ∀ (p : List Char) (acc n : Nat) (r q : List Char),
    munchNum acc p = (n, r) → r ≠ [] → munchNum acc (p ++ q) = (n, r ++ q)
  | [], acc, n, r, q, h, hr => by
    simp only [munchNum, Prod.mk.injEq] at h
    exact absurd h.2.symm hr
  | c :: rest, acc, n, r, q, h, hr => by
    rw [munchNum] at h
    rw [List.cons_append, munchNum]
    split at h
    · rename_i hd
      rw [if_pos hd]
      exact munchNum_append rest _ n r q h hr
    · rename_i hd
      rw [if_neg hd]
      simp only [Prod.mk.injEq] at h
      rw [← h.2, ← h.1, List.cons_append]

theorem parseUInt_shape (p : List Char) (n : Nat) (r : List Char)
    (h : parseUInt p = some (n, r)) :
    ∃ c rest, p = c :: rest ∧ isDigitChar c = true := by
  unfold parseUInt at h
  split at h
  · rename_i r2
    exact ⟨'0', r2, rfl, by decide⟩
  · rename_i c r2 hne
    split at h
    · rename_i hd
      rw [Bool.and_eq_true] at hd
      refine ⟨c, r2, rfl, ?_⟩
      rw [isDigitChar, Bool.and_eq_true]
      refine ⟨?_, hd.2⟩
      have h1 : '1' ≤ c := of_decide_eq_true hd.1
      exact decide_eq_true (le_trans (by decide : '0' ≤ '1') h1)
    · simp at h
  · simp at h

theorem parseUInt_append (p : List Char) (n : Nat) (r q : List Char)
    (h : parseUInt p = some (n, r)) (hr : r ≠ []) :
    parseUInt (p ++ q) = some (n, r ++ q) := by
  unfold parseUInt at h
  split at h
  · rename_i r2
    simp only [Option.some.injEq, Prod.mk.injEq] at h
    rw [List.cons_append]
    show some (0, r2 ++ q) = _
    rw [h.1, ← h.2]
  · rename_i c r2 hne
    split at h
    · rename_i hd
      simp only [Option.some.injEq] at h
      rw [List.cons_append]
      unfold parseUInt
      split
      · rename_i r3 heq
        rw [List.cons.injEq] at heq
        exact absurd heq.1 hne
      · rename_i c2 r3 hne2 heq
        rw [List.cons.injEq] at heq
        obtain ⟨hc2, hr3⟩ := heq
        subst hc2
        rw [if_pos hd, ← hr3]
        have : munchNum (c.toNat - 48) r2 = (n, r) := h
        rw [munchNum_append r2 (c.toNat - 48) n r q this hr]
      · rename_i heq
        simp at heq
    · simp at h
  · simp at h

theorem parseNumber_shape (p : List Char) (u : J) (r : List Char)
    (h : parseNumber p = some (u, r)) :
    (∃ i, u = J.num i) ∧ ∃ c rest, p = c :: rest ∧ (c = '-' ∨ isDigitChar c = true) := by
  unfold parseNumber at h
  split at h
  · rename_i r2
    cases hu : parseUInt r2 with
    | none => rw [hu] at h; simp at h
    | some pu =>
      rw [hu] at h
      simp only [Option.map_some', Option.some.injEq, Prod.mk.injEq] at h
      exact ⟨⟨-(pu.1 : Int), h.1.symm⟩, '-', r2, rfl, Or.inl rfl⟩
  · cases hu : parseUInt p with
    | none => rw [hu] at h; simp at h
    | some pu =>
      rw [hu] at h
      simp only [Option.map_some', Option.some.injEq, Prod.mk.injEq] at h
      obtain ⟨c, rest, hp, hd⟩ := parseUInt_shape p pu.1 pu.2 (by simpa using hu)
      exact ⟨⟨(pu.1 : Int), h.1.symm⟩, c, rest, hp, Or.inr hd⟩

theorem parseNumber_append (p : List Char) (u : J) (r q : List Char)
    (h : parseNumber p = some (u, r)) (hr : r ≠ []) :
    parseNumber (p ++ q) = some (u, r ++ q) := by
  unfold parseNumber at h
  split at h
  · rename_i r2
    cases hu : parseUInt r2 with
    | none => rw [hu] at h; simp at h
    | some pu =>
      rw [hu] at h
      simp only [Option.map_some', Option.some.injEq, Prod.mk.injEq] at h
      rw [List.cons_append]
      unfold parseNumber
      split
      · rename_i r3 heq
        rw [List.cons.injEq] at heq
        rw [← heq.2]
        have hr2 : pu.2 ≠ [] := by
          rw [h.2]
          exact hr
        rw [parseUInt_append r2 pu.1 pu.2 q (by simpa using hu) hr2]
        rw [← h.1, ← h.2]
        rfl
      · rename_i hne
        exact absurd rfl (hne (r2 ++ q))
  · rename_i hne
    cases hu : parseUInt p with
    | none => rw [hu] at h; simp at h
    | some pu =>
      rw [hu] at h
      simp only [Option.map_some', Option.some.injEq, Prod.mk.injEq] at h
      obtain ⟨c, rest, hp, hd⟩ := parseUInt_shape p pu.1 pu.2 (by simpa using hu)
      have hcd : c ≠ '-' := by
        intro hx
        rw [hx] at hd
        exact absurd hd (by decide)
      unfold parseNumber
      split
      · rename_i r3 heq
        rw [hp, List.cons_append, List.cons.injEq] at heq
        exact absurd heq.1 hcd
      · have hr2 : pu.2 ≠ [] := by
          rw [h.2]
          exact hr
        rw [parseUInt_append p pu.1 pu.2 q (by simpa using hu) hr2]
        rw [← h.1, ← h.2]
        rfl

theorem skipWs_append_ne (l q : List Char) (h : skipWs l ≠ []) :
    skipWs (l ++ q) = skipWs l ++ q := by
  induction l with
  | nil => exact absurd rfl h
  | cons c rest ih =>
    by_cases hws : isJsonWs c = true
    · have hh : skipWs (c :: rest) = skipWs rest := by
        show List.dropWhile isJsonWs (c :: rest) = _
        rw [List.dropWhile_cons_of_pos hws]
        rfl
      rw [hh] at h ⊢
      have hc : skipWs ((c :: rest) ++ q) = skipWs (rest ++ q) := by
        show List.dropWhile isJsonWs (c :: (rest ++ q)) = _
        rw [List.dropWhile_cons_of_pos hws]
        rfl
      rw [hc]
      exact ih h
    · have hf : isJsonWs c = false := by simpa using hws
      rw [skipWs_cons_neg c rest hf]
      show skipWs (c :: (rest ++ q)) = (c :: rest) ++ q
      rw [skipWs_cons_neg c (rest ++ q) hf, List.cons_append]

theorem parseMembers_nil (f : Nat) : parseMembers f [] = none := by
  cases f <;> rfl

theorem parseElems_nil (f : Nat) : parseElems f [] = none := by
  cases f with
  | zero => rfl
  | succ g =>
    unfold parseElems
    rw [show scan_once g [] = none from by cases g <;> rfl]

theorem scanstring_append_aux : ∀ (n : Nat) (p b r q : List Char), p.length ≤ n →
    scanstring p = some (b, r) → scanstring (p ++ q) = some (b, r ++ q)
  | 0, p, b, r, q, hn, h => by
    have : p = [] := by
      cases p with
      | nil => rfl
      | cons c t => simp at hn
    subst this
    simp [scanstring] at h
  | n + 1, p, b, r, q, hn, h => by
    unfold scanstring at h
    split at h
    · simp at h
    · rename_i r2
      simp only [Option.some.injEq, Prod.mk.injEq] at h
      rw [List.cons_append]
      show some ([], r2 ++ q) = _
      rw [← h.1, ← h.2]
    · simp at h
    · rename_i e r2
      split at h
      · rename_i c hu
        cases hs : scanstring r2 with
        | none => rw [hs] at h; simp at h
        | some p2 =>
          rw [hs] at h
          simp only [Option.map_some', Option.some.injEq, Prod.mk.injEq] at h
          rw [List.cons_append, List.cons_append]
          rw [scanstring, hu]
          dsimp only
          rw [scanstring_append_aux n r2 p2.1 p2.2 q (by simp at hn; omega) (by simpa using hs)]
          rw [← h.1, ← h.2]
          rfl
      · simp at h
    · rename_i c r2 hn1 hn2 hn3
      split at h
      · simp at h
      · rename_i hctrl
        cases hs : scanstring r2 with
        | none => rw [hs] at h; simp at h
        | some p2 =>
          rw [hs] at h
          simp only [Option.map_some', Option.some.injEq, Prod.mk.injEq] at h
          have hcb : c ≠ '\\' := by
            intro hx
            cases r2 with
            | nil => exact hn2 hx rfl
            | cons e r5 => exact hn3 e r5 hx rfl
          rw [List.cons_append]
          unfold scanstring
          split
          · rename_i heq
            simp at heq
          · rename_i heq
            rw [List.cons.injEq] at heq
            exact absurd heq.1 hn1
          · rename_i heq
            rw [List.cons.injEq] at heq
            exact absurd heq.1 hcb
          · rename_i heq
            rw [List.cons.injEq] at heq
            exact absurd heq.1 hcb
          · rename_i heq
            rw [List.cons.injEq] at heq
            obtain ⟨hc2, hr2⟩ := heq
            subst hc2
            rw [if_neg hctrl, ← hr2]
            rw [scanstring_append_aux n r2 p2.1 p2.2 q (by simp at hn; omega) (by simpa using hs)]
            rw [← h.1, ← h.2]
            rfl

theorem scanstring_append (p b r q : List Char) (h : scanstring p = some (b, r)) :
    scanstring (p ++ q) = some (b, r ++ q) :=
  scanstring_append_aux p.length p b r q (Nat.le_refl _) h

theorem scan_once_nil (f : Nat) : scan_once f [] = none := by
  cases f <;> rfl

mutual

theorem scan_once_append : ∀ (f : Nat) (p : List Char) (u : J) (r q : List Char),
    scan_once f p = some (u, r) → (r ≠ [] ∨ isNumJ u = false) →
    scan_once f (p ++ q) = some (u, r ++ q)
  | 0, p, u, r, q, h, _ => by simp [scan_once] at h
  | f + 1, p, u, r, q, h, hd => by
    unfold scan_once at h
    split at h
    · rename_i r2
      simp only [Option.some.injEq, Prod.mk.injEq] at h
      obtain ⟨hu, hr⟩ := h
      subst hu
      subst hr
      simp only [List.cons_append]
      rfl
    · rename_i r2
      simp only [Option.some.injEq, Prod.mk.injEq] at h
      obtain ⟨hu, hr⟩ := h
      subst hu
      subst hr
      simp only [List.cons_append]
      rfl
    · rename_i r2
      simp only [Option.some.injEq, Prod.mk.injEq] at h
      obtain ⟨hu, hr⟩ := h
      subst hu
      subst hr
      simp only [List.cons_append]
      rfl
    · rename_i r2
      cases hs : scanstring r2 with
      | none => rw [hs] at h; simp at h
      | some p2 =>
        rw [hs] at h
        simp only [Option.map_some', Option.some.injEq, Prod.mk.injEq] at h
        simp only [List.cons_append]
        rw [scan_once, scanstring_append r2 p2.1 p2.2 q (by simpa using hs)]
        rw [← h.1, ← h.2]
        rfl
    · rename_i r2
      split at h
      · rename_i r3 heq
        simp only [Option.some.injEq, Prod.mk.injEq] at h
        obtain ⟨hu, hr⟩ := h
        have hsw : skipWs (r2 ++ q) = '}' :: (r3 ++ q) := by
          rw [skipWs_append_ne r2 q (by rw [heq]; simp), heq, List.cons_append]
        simp only [List.cons_append]
        rw [scan_once, hsw]
        split
        · rename_i r5 heq5
          rw [List.cons.injEq] at heq5
          rw [← heq5.2, ← hu, ← hr]
        · rename_i hcond
          exact absurd rfl (hcond (r3 ++ q))
      · rename_i hcond
        cases hm : parseMembers f (skipWs r2) with
        | none => rw [hm] at h; simp at h
        | some pm =>
          rw [hm] at h
          simp only [Option.map_some', Option.some.injEq, Prod.mk.injEq] at h
          have hnn : skipWs r2 ≠ [] := by
            intro hx
            rw [hx, parseMembers_nil] at hm
            exact Option.noConfusion hm
          have hsw : skipWs (r2 ++ q) = skipWs r2 ++ q := skipWs_append_ne r2 q hnn
          simp only [List.cons_append]
          rw [scan_once, hsw]
          split
          · rename_i r5 heq5
            cases hsk : skipWs r2 with
            | nil => exact absurd hsk hnn
            | cons c rest =>
              rw [hsk, List.cons_append, List.cons.injEq] at heq5
              exact absurd (by rw [hsk, heq5.1] : skipWs r2 = '}' :: rest) (hcond rest)
          · rw [parseMembers_append f (skipWs r2) pm q hm]
            rw [← h.1, ← h.2]
            rfl
    · rename_i r2
      split at h
      · rename_i r3 heq
        simp only [Option.some.injEq, Prod.mk.injEq] at h
        obtain ⟨hu, hr⟩ := h
        have hsw : skipWs (r2 ++ q) = ']' :: (r3 ++ q) := by
          rw [skipWs_append_ne r2 q (by rw [heq]; simp), heq, List.cons_append]
        simp only [List.cons_append]
        rw [scan_once, hsw]
        split
        · rename_i r5 heq5
          rw [List.cons.injEq] at heq5
          rw [← heq5.2, ← hu, ← hr]
        · rename_i hcond
          exact absurd rfl (hcond (r3 ++ q))
      · rename_i hcond
        cases hm : parseElems f (skipWs r2) with
        | none => rw [hm] at h; simp at h
        | some pm =>
          rw [hm] at h
          simp only [Option.map_some', Option.some.injEq, Prod.mk.injEq] at h
          have hnn : skipWs r2 ≠ [] := by
            intro hx
            rw [hx, parseElems_nil] at hm
            exact Option.noConfusion hm
          have hsw : skipWs (r2 ++ q) = skipWs r2 ++ q := skipWs_append_ne r2 q hnn
          simp only [List.cons_append]
          rw [scan_once, hsw]
          split
          · rename_i r5 heq5
            cases hsk : skipWs r2 with
            | nil => exact absurd hsk hnn
            | cons c rest =>
              rw [hsk, List.cons_append, List.cons.injEq] at heq5
              exact absurd (by rw [hsk, heq5.1] : skipWs r2 = ']' :: rest) (hcond rest)
          · rw [parseElems_append f (skipWs r2) pm q hm]
            rw [← h.1, ← h.2]
            rfl
    · obtain ⟨⟨i, hu⟩, c, rest, hp, hc⟩ := parseNumber_shape p u r h
      subst hu
      have ht : r ≠ [] := by
        rcases hd with hd | hd
        · exact hd
        · simp [isNumJ] at hd
      have hne : ∀ x : Char, isDigitChar x = false → x ≠ '-' → c ≠ x := by
        intro x hx1 hx2 hcx
        rcases hc with hc2 | hc2
        · exact hx2 (hcx.symm.trans hc2)
        · rw [hcx] at hc2
          exact absurd hc2 (by simp [hx1])
      subst hp
      simp only [List.cons_append]
      unfold scan_once
      split
      · rename_i heq
        rw [List.cons.injEq] at heq
        exact absurd heq.1 (hne 'n' (by decide) (by decide))
      · rename_i heq
        rw [List.cons.injEq] at heq
        exact absurd heq.1 (hne 't' (by decide) (by decide))
      · rename_i heq
        rw [List.cons.injEq] at heq
        exact absurd heq.1 (hne 'f' (by decide) (by decide))
      · rename_i heq
        rw [List.cons.injEq] at heq
        exact absurd heq.1 (hne '"' (by decide) (by decide))
      · rename_i heq
        rw [List.cons.injEq] at heq
        exact absurd heq.1 (hne '{' (by decide) (by decide))
      · rename_i heq
        rw [List.cons.injEq] at heq
        exact absurd heq.1 (hne '[' (by decide) (by decide))
      · rw [← List.cons_append]
        exact parseNumber_append (c :: rest) (J.num i) r q h ht

theorem parseMembers_append : ∀ (f : Nat) (p : List Char)
    (x : List (List Char × J) × List Char) (q : List Char),
    parseMembers f p = some x → parseMembers f (p ++ q) = some (x.1, x.2 ++ q)
  | 0, p, x, q, h => by simp [parseMembers] at h
  | f + 1, p, x, q, h => by
    unfold parseMembers at h
    split at h
    · rename_i r2
      split at h
      · simp at h
      · rename_i k r1 hk
        split at h
        · rename_i r3 heq3
          cases hv : scan_once f (skipWs r3) with
          | none => rw [hv] at h; simp at h
          | some pv =>
            obtain ⟨v, r4⟩ := pv
            rw [hv] at h
            dsimp only at h
            split at h
            · rename_i r5 heq5
              cases hm : parseMembers f (skipWs r5) with
              | none => rw [hm] at h; simp at h
              | some pm =>
                rw [hm] at h
                simp only [Option.map_some', Option.some.injEq] at h
                have hr4 : r4 ≠ [] := by
                  intro hx
                  rw [hx] at heq5
                  exact absurd heq5 (by simp [skipWs])
                have hv2 : scan_once f (skipWs r3 ++ q) = some (v, r4 ++ q) :=
                  scan_once_append f (skipWs r3) v r4 q hv (Or.inl hr4)
                have hsw3 : skipWs r3 ≠ [] := by
                  intro hx
                  rw [hx, scan_once_nil] at hv
                  exact Option.noConfusion hv
                have hsw5 : skipWs r5 ≠ [] := by
                  intro hx
                  rw [hx, parseMembers_nil] at hm
                  exact Option.noConfusion hm
                simp only [List.cons_append]
                rw [parseMembers, scanstring_append r2 k r1 q hk]
                dsimp only
                rw [skipWs_append_ne r1 q (by rw [heq3]; simp), heq3, List.cons_append]
                split
                · rename_i r6 heq6
                  rw [List.cons.injEq] at heq6
                  obtain ⟨-, h6⟩ := heq6
                  subst h6
                  rw [skipWs_append_ne r3 q hsw3, hv2]
                  dsimp only
                  rw [skipWs_append_ne r4 q (by rw [heq5]; simp), heq5, List.cons_append]
                  split
                  · rename_i r7 heq7
                    rw [List.cons.injEq] at heq7
                    obtain ⟨-, h7⟩ := heq7
                    subst h7
                    rw [skipWs_append_ne r5 q hsw5]
                    rw [parseMembers_append f (skipWs r5) pm q hm]
                    rw [← h]
                    rfl
                  · rename_i r7 heq7
                    rw [List.cons.injEq] at heq7
                    exact absurd heq7.1 (by decide)
                  · rename_i hc1 hc2
                    exact absurd rfl (hc1 _)
                · rename_i hcond
                  exact absurd rfl (hcond _)
            · rename_i r5 heq5
              simp only [Option.some.injEq] at h
              have hsw3 : skipWs r3 ≠ [] := by
                intro hx
                rw [hx, scan_once_nil] at hv
                exact Option.noConfusion hv
              have hr4 : r4 ≠ [] := by
                intro hx
                rw [hx] at heq5
                exact absurd heq5 (by simp [skipWs])
              have hv2 : scan_once f (skipWs r3 ++ q) = some (v, r4 ++ q) :=
                scan_once_append f (skipWs r3) v r4 q hv (Or.inl hr4)
              simp only [List.cons_append]
              rw [parseMembers, scanstring_append r2 k r1 q hk]
              dsimp only
              rw [skipWs_append_ne r1 q (by rw [heq3]; simp), heq3, List.cons_append]
              split
              · rename_i r6 heq6
                rw [List.cons.injEq] at heq6
                obtain ⟨-, h6⟩ := heq6
                subst h6
                rw [skipWs_append_ne r3 q hsw3, hv2]
                dsimp only
                rw [skipWs_append_ne r4 q (by rw [heq5]; simp), heq5, List.cons_append]
                split
                · rename_i r7 heq7
                  rw [List.cons.injEq] at heq7
                  exact absurd heq7.1 (by decide)
                · rename_i r7 heq7
                  rw [List.cons.injEq] at heq7
                  obtain ⟨-, h7⟩ := heq7
                  subst h7
                  rw [← h]
                · rename_i hc1 hc2
                  exact absurd rfl (hc2 _)
              · rename_i hcond
                exact absurd rfl (hcond _)
            · simp at h
        · simp at h
    · simp at h

theorem parseElems_append : ∀ (f : Nat) (p : List Char) (x : List J × List Char)
    (q : List Char),
    parseElems f p = some x → parseElems f (p ++ q) = some (x.1, x.2 ++ q)
  | 0, p, x, q, h => by simp [parseElems] at h
  | f + 1, p, x, q, h => by
    unfold parseElems at h
    cases hv : scan_once f p with
    | none => rw [hv] at h; simp at h
    | some pv =>
      obtain ⟨v, r1⟩ := pv
      rw [hv] at h
      dsimp only at h
      split at h
      · rename_i r2 heq2
        cases hm : parseElems f (skipWs r2) with
        | none => rw [hm] at h; simp at h
        | some pm =>
          rw [hm] at h
          simp only [Option.map_some', Option.some.injEq] at h
          have hr1 : r1 ≠ [] := by
            intro hx
            rw [hx] at heq2
            exact absurd heq2 (by simp [skipWs])
          have hv2 : scan_once f (p ++ q) = some (v, r1 ++ q) :=
            scan_once_append f p v r1 q hv (Or.inl hr1)
          have hsw2 : skipWs r2 ≠ [] := by
            intro hx
            rw [hx, parseElems_nil] at hm
            exact Option.noConfusion hm
          rw [parseElems, hv2]
          dsimp only
          rw [skipWs_append_ne r1 q (by rw [heq2]; simp), heq2, List.cons_append]
          split
          · rename_i r6 heq6
            rw [List.cons.injEq] at heq6
            obtain ⟨-, h6⟩ := heq6
            subst h6
            rw [skipWs_append_ne r2 q hsw2]
            rw [parseElems_append f (skipWs r2) pm q hm]
            rw [← h]
            rfl
          · rename_i r6 heq6
            rw [List.cons.injEq] at heq6
            exact absurd heq6.1 (by decide)
          · rename_i hc1 hc2
            exact absurd rfl (hc1 _)
      · rename_i r2 heq2
        simp only [Option.some.injEq] at h
        have hr1 : r1 ≠ [] := by
          intro hx
          rw [hx] at heq2
          exact absurd heq2 (by simp [skipWs])
        have hv2 : scan_once f (p ++ q) = some (v, r1 ++ q) :=
          scan_once_append f p v r1 q hv (Or.inl hr1)
        rw [parseElems, hv2]
        dsimp only
        rw [skipWs_append_ne r1 q (by rw [heq2]; simp), heq2, List.cons_append]
        split
        · rename_i r6 heq6
          rw [List.cons.injEq] at heq6
          exact absurd heq6.1 (by decide)
        · rename_i r6 heq6
          rw [List.cons.injEq] at heq6
          obtain ⟨-, h6⟩ := heq6
          subst h6
          rw [← h]
        · rename_i hc1 hc2
          exact absurd rfl (hc2 _)
      · simp at h

end

theorem scan_once_brace_shape (f : Nat) (s : List Char) (u : J) (r : List Char)
    (h : scan_once f ('{' :: s) = some (u, r)) : ∃ ms, u = J.obj ms := by
  cases f with
  | zero => simp [scan_once] at h
  | succ g =>
    unfold scan_once at h
    split at h
    · rename_i heq
      rw [List.cons.injEq] at heq
      exact absurd heq.1 (by decide)
    · rename_i heq
      rw [List.cons.injEq] at heq
      exact absurd heq.1 (by decide)
    · rename_i heq
      rw [List.cons.injEq] at heq
      exact absurd heq.1 (by decide)
    · rename_i heq
      rw [List.cons.injEq] at heq
      exact absurd heq.1 (by decide)
    · rename_i r2 heq
      split at h
      · simp only [Option.some.injEq, Prod.mk.injEq] at h
        exact ⟨[], h.1.symm⟩
      · cases hm : parseMembers g (skipWs r2) with
        | none => rw [hm] at h; simp at h
        | some pm =>
          rw [hm] at h
          simp only [Option.map_some', Option.some.injEq, Prod.mk.injEq] at h
          exact ⟨pm.1, h.1.symm⟩
    · rename_i heq
      rw [List.cons.injEq] at heq
      exact absurd heq.1 (by decide)
    · obtain ⟨_, c, rest, hp, hc⟩ := parseNumber_shape _ u r h
      rw [List.cons.injEq] at hp
      rcases hc with hc | hc
      · rw [← hp.1] at hc
        exact absurd hc (by decide)
      · rw [← hp.1] at hc
        exact absurd hc (by decide)

/-- A strict prefix of the compact encoding of a JSON object never scans
as a complete value: `raw_decode` (at any fuel) fails on it, which is why
the loop treats it as incomplete input and waits for the rest. -/
theorem scan_once_strict_prefix_obj (ms : List (List Char × J)) (p t : List Char)
    (f : Nat) (hwf : wfJ (J.obj ms) = true) (he : p ++ t = encode (J.obj ms))
    (ht : t ≠ []) : scan_once f p = none := by
  cases hsc : scan_once f p with
  | none => rfl
  | some x =>
    exfalso
    obtain ⟨u, r⟩ := x
    cases p with
    | nil =>
      rw [scan_once_nil] at hsc
      exact Option.noConfusion hsc
    | cons c p' =>
      have hc : c = '{' := by
        have he2 := he
        rw [List.cons_append] at he2
        cases ms with
        | nil =>
          rw [show encode (J.obj []) = '{' :: '}' :: [] from rfl, List.cons.injEq] at he2
          exact he2.1
        | cons m ms2 =>
          rw [show encode (J.obj (m :: ms2))
              = '{' :: (encodeMember m ++ encodeMembersRest ms2) from rfl,
            List.cons.injEq] at he2
          exact he2.1
      subst hc
      obtain ⟨ms2, hu⟩ := scan_once_brace_shape f p' u r hsc
      subst hu
      have hext : scan_once f (('{' :: p') ++ t) = some (J.obj ms2, r ++ t) :=
        scan_once_append f ('{' :: p') (J.obj ms2) r t hsc (Or.inr rfl)
      rw [he] at hext
      have hmono : scan_once (max f (encode (J.obj ms)).length) (encode (J.obj ms))
          = some (J.obj ms2, r ++ t) :=
        scan_once_mono_le (encode (J.obj ms)) (J.obj ms2, r ++ t) (Nat.le_max_left f _) hext
      have hcomp : scan_once (max f (encode (J.obj ms)).length) (encode (J.obj ms) ++ [])
          = some (J.obj ms, []) :=
        scan_once_encode _ (J.obj ms) [] hwf (Nat.le_max_right _ _)
          (by intro hh; simp [isNumJ] at hh)
      rw [List.append_nil, hmono] at hcomp
      simp only [Option.some.injEq, Prod.mk.injEq] at hcomp
      exact ht (List.append_eq_nil.mp hcomp.2).2

theorem raw_decode_strict_prefix_obj (ms : List (List Char × J)) (p t : List Char)
    (hwf : wfJ (J.obj ms) = true) (he : p ++ t = encode (J.obj ms)) (ht : t ≠ []) :
    raw_decode p = none :=
  scan_once_strict_prefix_obj ms p t (p.length + 1) hwf he ht

/-- All entries are well-formed JSON objects (the shape of a valid
JSON-RPC Request). -/
def allWfObj (vs : List J) : Bool := vs.all fun v => wfJ v && isObjJ v

theorem isObjJ_shape (v : J) (h : isObjJ v = true) : ∃ ms, v = J.obj ms := by
  cases v with
  | obj ms => exact ⟨ms, rfl⟩
  | null => simp [isObjJ] at h
  | bool b => simp [isObjJ] at h
  | num n => simp [isObjJ] at h
  | str s => simp [isObjJ] at h
  | arr es => simp [isObjJ] at h

theorem allWfObj_cons (v : J) (vs : List J) (h : allWfObj (v :: vs) = true) :
    (wfJ v = true ∧ isObjJ v = true) ∧ allWfObj vs = true := by
  rw [allWfObj, List.all_cons, Bool.and_eq_true, Bool.and_eq_true] at h
  exact ⟨h.1, h.2⟩

theorem allWfObj_append_right (a b : List J) (h : allWfObj (a ++ b) = true) :
    allWfObj b = true := by
  rw [allWfObj, List.all_append, Bool.and_eq_true] at h
  exact h.2

theorem raw_decode_nil : raw_decode [] = none := rfl

/-- One draining pass over a buffer that is a prefix of a stream of
encoded messages: it consumes exactly the complete messages present,
emits their events in order, and leaves the strict-prefix remainder,
which does not decode. -/
theorem read_messages_stream_aux : ∀ (n : Nat) (q : List Char) (todo : List J)
    (rest : List Char) (process : J → List Ev), q.length ≤ n →
    allWfObj todo = true →
    q ++ rest = ((todo.map encode).flatten) →
    ∃ done todo2 q2,
      todo = done ++ todo2 ∧
      q = ((done.map encode).flatten) ++ q2 ∧
      read_messages process q = (((done.map process).flatten), q2) ∧
      raw_decode q2 = none
  | 0, q, todo, rest, process, hn, hwf, hsplit => by
    have hq0 : q = [] := by
      cases q with
      | nil => rfl
      | cons a b => simp at hn
    subst hq0
    refine ⟨[], todo, [], rfl, rfl, ?_, raw_decode_nil⟩
    rw [read_messages_none process [] raw_decode_nil]
    rfl
  | n + 1, q, todo, rest, process, hn, hwf, hsplit => by
    by_cases hq0 : q = []
    · subst hq0
      refine ⟨[], todo, [], rfl, rfl, ?_, raw_decode_nil⟩
      rw [read_messages_none process [] raw_decode_nil]
      rfl
    · cases todo with
      | nil =>
        exfalso
        simp only [List.map_nil, List.flatten_nil, List.append_eq_nil] at hsplit
        exact hq0 hsplit.1
      | cons v ts =>
        obtain ⟨⟨hwv, hov⟩, hwts⟩ := allWfObj_cons v ts hwf
        obtain ⟨ms, hms⟩ := isObjJ_shape v hov
        subst hms
        have hsplit2 : q ++ rest = encode (J.obj ms) ++ ((ts.map encode).flatten) := by
          rw [hsplit]
          simp [List.map_cons, List.flatten_cons]
        rcases List.append_eq_append_iff.mp hsplit2 with ⟨w, hw1, hw2⟩ | ⟨w, hw1, hw2⟩
        · cases hwnil : w with
          | cons d w' =>
            have hrd : raw_decode q = none := by
              refine raw_decode_strict_prefix_obj ms q w hwv hw1.symm ?_
              rw [hwnil]
              simp
            refine ⟨[], J.obj ms :: ts, q, rfl, rfl, ?_, hrd⟩
            rw [read_messages_none process q hrd]
            rfl
          | nil =>
            rw [hwnil, List.append_nil] at hw1
            have hrd : raw_decode q = some (J.obj ms, []) := by
              rw [show q = encode (J.obj ms) ++ [] by rw [← hw1]; simp]
              exact raw_decode_encode_obj ms [] hwv
            rw [read_messages_some process q (J.obj ms) [] hrd]
            rw [show lstrip [] = [] from rfl]
            rw [read_messages_none process [] raw_decode_nil]
            refine ⟨[J.obj ms], ts, [], rfl, by simp [← hw1], ?_, raw_decode_nil⟩
            simp
        · have hrd : raw_decode q = some (J.obj ms, w) := by
            rw [hw1, raw_decode]
            refine scan_once_encode _ (J.obj ms) w hwv ?_ (by intro hh; simp [isNumJ] at hh)
            simp only [List.length_append]
            omega
          have hlstrip : lstrip w = w := by
            cases hwc : w with
            | nil => rfl
            | cons d w' =>
              cases ts with
              | nil =>
                exfalso
                rw [hwc] at hw2
                simp at hw2
              | cons v2 ts2 =>
                obtain ⟨⟨hwv2, hov2⟩, _⟩ := allWfObj_cons v2 ts2 hwts
                obtain ⟨ms2, hms2⟩ := isObjJ_shape v2 hov2
                have hj : w ++ rest = encode v2 ++ ((ts2.map encode).flatten) := by
                  rw [← hw2]
                  simp [List.map_cons, List.flatten_cons]
                have hd : d = '{' := by
                  rw [hwc, List.cons_append] at hj
                  rw [hms2] at hj
                  cases ms2 with
                  | nil =>
                    rw [show encode (J.obj []) = '{' :: '}' :: [] from rfl,
                      List.cons_append, List.cons.injEq] at hj
                    exact hj.1
                  | cons m2 ms3 =>
                    rw [show encode (J.obj (m2 :: ms3))
                        = '{' :: (encodeMember m2 ++ encodeMembersRest ms3) from rfl,
                      List.cons_append, List.cons.injEq] at hj
                    exact hj.1
                rw [hd]
                exact lstrip_cons_neg '{' w' (by decide)
          have hwlen : w.length ≤ n := by
            have hepos := encode_length_pos (J.obj ms)
            have : q.length = (encode (J.obj ms)).length + w.length := by
              rw [hw1]
              simp
            omega
          obtain ⟨done2, todo2, q2, hsp, hpre, hrm, hrd2⟩ :=
            read_messages_stream_aux n w ts rest process hwlen hwts hw2.symm
          refine ⟨J.obj ms :: done2, todo2, q2, by rw [hsp]; rfl, ?_, ?_, hrd2⟩
          · rw [hw1, hpre]
            simp [List.map_cons, List.flatten_cons]
          · rw [read_messages_some process q (J.obj ms) w hrd, hlstrip, hrm]
            simp [List.map_cons, List.flatten_cons]

/-- The chunked read loop over a byte stream that is the concatenation of
encoded messages: every message is processed exactly once, in order, and
the final buffer is empty — however the stream is cut into chunks. -/
theorem run_loop_stream : ∀ (cs : List (List Char)) (buf : List Char) (todo : List J)
    (process : J → List Ev),
    allWfObj todo = true →
    buf ++ cs.flatten = ((todo.map encode).flatten) →
    raw_decode buf = none →
    run_loop process buf cs = (((todo.map process).flatten), [])
  | [], buf, todo, process, hwf, hsplit, hrd => by
    cases todo with
    | nil =>
      have hb : buf = [] := by simpa using hsplit
      subst hb
      rw [run_loop]
      simp
    | cons v ts =>
      exfalso
      obtain ⟨⟨hwv, hov⟩, _⟩ := allWfObj_cons v ts hwf
      obtain ⟨ms, hms⟩ := isObjJ_shape v hov
      subst hms
      simp only [List.flatten_nil, List.append_nil] at hsplit
      have : raw_decode buf = some (J.obj ms, ((ts.map encode).flatten)) := by
        rw [hsplit]
        simp only [List.map_cons, List.flatten_cons]
        exact raw_decode_encode_obj ms _ hwv
      rw [this] at hrd
      exact Option.noConfusion hrd
  | c :: cs, buf, todo, process, hwf, hsplit, hrd => by
    obtain ⟨done, todo2, q2, hsp, hpre, hrm, hrd2⟩ :=
      read_messages_stream_aux (buf ++ c).length (buf ++ c) todo (cs.flatten) process
        (Nat.le_refl _) hwf (by rw [← hsplit]; simp)
    have key : ((done.map encode).flatten) ++ (q2 ++ cs.flatten)
        = ((done.map encode).flatten) ++ ((todo2.map encode).flatten) := by
      calc ((done.map encode).flatten) ++ (q2 ++ cs.flatten)
          = (((done.map encode).flatten) ++ q2) ++ cs.flatten := by
            rw [List.append_assoc]
        _ = (buf ++ c) ++ cs.flatten := by rw [← hpre]
        _ = buf ++ (c :: cs).flatten := by simp
        _ = ((todo.map encode).flatten) := hsplit
        _ = ((done.map encode).flatten) ++ ((todo2.map encode).flatten) := by
            rw [hsp]
            simp
    have hrest : q2 ++ cs.flatten = ((todo2.map encode).flatten) :=
      List.append_cancel_left key
    have hih : run_loop process q2 cs = (((todo2.map process).flatten), []) :=
      run_loop_stream cs q2 todo2 process
        (allWfObj_append_right done todo2 (hsp ▸ hwf)) hrest hrd2
    have hstep : run_loop process buf (c :: cs)
        = ((read_messages process (buf ++ c)).1
            ++ (run_loop process (read_messages process (buf ++ c)).2 cs).1,
          (run_loop process (read_messages process (buf ++ c)).2 cs).2) := rfl
    rw [hstep, hrm]
    dsimp only
    rw [hih]
    dsimp only
    rw [hsp]
    simp

/-- `request.get("id")` as Python sees it: the echoed correlation id
(`None`, i.e. JSON `null`, when absent). -/
def reqIdOf (req : J) : J := (dictGet req "id".data).getD J.null

/-- The invocation a request selects: `some (f args-result)` when the
method names one of the four dispatch arms and its handler slot is bound;
`none` otherwise.  An `Except.error` models the handler raising. -/
def handlerOutcome (h : Handlers) (req : J) : Option (Except (List Char) J) :=
  match dictGet req "method".data with
  | some (J.str m) =>
    if m = "tools/list".data then h.tools_handler.map (fun f => f ())
    else if m = "tools/call".data then
      h.call_tool_handler.map (fun f => f ((dictGet req "params".data).getD (J.obj [])))
    else if m = "resources/list".data then h.resources_handler.map (fun f => f ())
    else if m = "resources/read".data then
      h.read_resource_handler.map (fun f => f ((dictGet req "params".data).getD (J.obj [])))
    else none
  | _ => none

theorem dictGet_okResponse_jsonrpc (rid res : J) :
    dictGet (okResponse rid res) "jsonrpc".data = some (J.str "2.0".data) := rfl

theorem dictGet_okResponse_id (rid res : J) :
    dictGet (okResponse rid res) "id".data = some rid := rfl

theorem dictGet_okResponse_result (rid res : J) :
    dictGet (okResponse rid res) "result".data = some res := rfl

theorem dictGet_okResponse_error (rid res : J) :
    dictGet (okResponse rid res) "error".data = none := rfl

theorem dictGet_errResponse_jsonrpc (rid : J) (code : Int) (msg : List Char) :
    dictGet (errResponse rid code msg) "jsonrpc".data = some (J.str "2.0".data) := rfl

theorem dictGet_errResponse_id (rid : J) (code : Int) (msg : List Char) :
    dictGet (errResponse rid code msg) "id".data = some rid := rfl

theorem dictGet_errResponse_result (rid : J) (code : Int) (msg : List Char) :
    dictGet (errResponse rid code msg) "result".data = none := rfl

theorem dictGet_errResponse_error (rid : J) (code : Int) (msg : List Char) :
    dictGet (errResponse rid code msg) "error".data
      = some (J.obj [("code".data, J.num code), ("message".data, J.str msg)]) := rfl

/-- Every dispatch lands in one of the two envelope constructors, always
echoing the request's id. -/
theorem handle_request_shape (h : Handlers) (req : J) :
    (∃ res, handle_request h req = okResponse (reqIdOf req) res) ∨
    (∃ code msg, handle_request h req = errResponse (reqIdOf req) code msg) := by
  unfold handle_request reqIdOf
  dsimp only
  repeat' split
  all_goals first
    | exact Or.inl ⟨_, rfl⟩
    | exact Or.inr ⟨_, _, rfl⟩

theorem decodedOf_server : ∀ (vs : List J) (h : Handlers),
    decodedOf ((vs.map (server_step h)).flatten) = vs
  | [], _ => rfl
  | v :: vs, h => by
    have ih := decodedOf_server vs h
    unfold decodedOf at ih ⊢
    simp only [List.map_cons, List.flatten_cons, List.filterMap_append]
    rw [ih]
    rfl

theorem writtenOf_server : ∀ (vs : List J) (h : Handlers),
    writtenOf ((vs.map (server_step h)).flatten) = vs.map (handle_request h)
  | [], _ => rfl
  | v :: vs, h => by
    have ih := writtenOf_server vs h
    unfold writtenOf at ih ⊢
    simp only [List.map_cons, List.flatten_cons, List.filterMap_append]
    rw [ih]
    rfl

theorem wroteOf_bridge : ∀ (vs : List J) (d : J → DownstreamOutcome),
    wroteOf ((vs.map (bridge_step d)).flatten)
      = vs.map (fun v => forward_request (d v) v)
  | [], _ => rfl
  | v :: vs, d => by
    have ih := wroteOf_bridge vs d
    unfold wroteOf at ih ⊢
    simp only [List.map_cons, List.flatten_cons, List.filterMap_append]
    rw [ih]
    rfl

/-- Prefix-count invariant of the server trace: at any cut, the number of
dispatches that have started exceeds the number of responses already
written by at most one, and never lags it — i.e. response N is fully
written before dispatch N+1 begins. -/
theorem server_trace_counts : ∀ (vs : List J) (h : Handlers) (k : Nat),
    countDispatched (((vs.map (server_step h)).flatten).take k)
        ≤ countWritten (((vs.map (server_step h)).flatten).take k) + 1 ∧
    countWritten (((vs.map (server_step h)).flatten).take k)
        ≤ countDispatched (((vs.map (server_step h)).flatten).take k)
  | [], h, k => by simp [countDispatched, countWritten]
  | v :: vs, h, k => by
    match k with
    | 0 => simp [countDispatched, countWritten]
    | 1 =>
      simp only [List.map_cons, List.flatten_cons, server_step, List.cons_append,
        List.nil_append, List.take_succ_cons, List.take_zero]
      simp [countDispatched, countWritten, isDispatchedEv, isWrittenEv, List.filter]
    | 2 =>
      simp only [List.map_cons, List.flatten_cons, server_step, List.cons_append,
        List.nil_append, List.take_succ_cons, List.take_zero]
      simp [countDispatched, countWritten, isDispatchedEv, isWrittenEv, List.filter]
    | k' + 3 =>
      have ih := server_trace_counts vs h k'
      simp only [List.map_cons, List.flatten_cons, server_step, List.cons_append,
        List.nil_append, List.take_succ_cons]
      simp only [countDispatched, countWritten, List.filter, isDispatchedEv, isWrittenEv,
        List.length_cons] at ih ⊢
      omega

/-- A buffer whose head is the structurally invalid byte `]` never
decodes, at any fuel: the scanner rejects it immediately. -/
theorem scan_once_rbracket (f : Nat) (r : List Char) :
    scan_once f (']' :: r) = none := by
  cases f <;> rfl

theorem raw_decode_rbracket (r : List Char) : raw_decode (']' :: r) = none :=
  scan_once_rbracket _ r

theorem run_loop_rbracket : ∀ (cs : List (List Char)) (h : Handlers) (rest : List Char),
    run_loop (server_step h) (']' :: rest) cs = ([], ']' :: (rest ++ cs.flatten))
  | [], h, rest => by
    rw [run_loop]
    simp
  | c :: cs, h, rest => by
    have hstep : run_loop (server_step h) (']' :: rest) (c :: cs)
        = ((read_messages (server_step h) ((']' :: rest) ++ c)).1
            ++ (run_loop (server_step h)
                (read_messages (server_step h) ((']' :: rest) ++ c)).2 cs).1,
          (run_loop (server_step h)
              (read_messages (server_step h) ((']' :: rest) ++ c)).2 cs).2) := rfl
    rw [hstep]
    rw [show (']' :: rest) ++ c = ']' :: (rest ++ c) from rfl]
    rw [read_messages_none (server_step h) (']' :: (rest ++ c)) (raw_decode_rbracket _)]
    dsimp only
    rw [run_loop_rbracket cs h (rest ++ c)]
    simp

/-- C1 (counterexample).  The claim says a structurally invalid byte span
(here a stray `]`) is skipped with a framing error and later valid
messages still drain.  On the code it is not: the loop treats every
`JSONDecodeError` as "need more data" and `break`s, so with the buffer
`]{"id":1}{"id":2}` nothing is ever decoded or written — both valid
messages after the corrupt byte are blocked — even though each of them
alone is a well-formed request object. -/
theorem C1_counterexample :
    decodedOf (run_loop (server_step McpServer_init) []
        [(']' :: encode (J.obj [("id".data, J.num 1)]))
          ++ encode (J.obj [("id".data, J.num 2)])]).1 = [] ∧
    writtenOf (run_loop (server_step McpServer_init) []
        [(']' :: encode (J.obj [("id".data, J.num 1)]))
          ++ encode (J.obj [("id".data, J.num 2)])]).1 = [] ∧
    (run_loop (server_step McpServer_init) []
        [(']' :: encode (J.obj [("id".data, J.num 1)]))
          ++ encode (J.obj [("id".data, J.num 2)])]).2
      = ']' :: (encode (J.obj [("id".data, J.num 1)])
          ++ encode (J.obj [("id".data, J.num 2)])) ∧
    allWfObj [J.obj [("id".data, J.num 1)], J.obj [("id".data, J.num 2)]] = true := by
  refine ⟨by decide, by decide, by decide, by decide⟩

/-- C1 (amended).  What the code actually does with a buffer whose head
cannot be a prefix of any valid JSON value: `raw_decode` keeps failing,
the loop keeps `break`ing out of the drain ("need more data"), nothing is
emitted and the buffer is never advanced — every further chunk only
accumulates behind the corrupt head, so one corrupt segment permanently
blocks draining of all subsequent valid messages on the connection. -/
theorem C1_invalid_head_blocks (cs : List (List Char)) (h : Handlers) (rest : List Char) :
    run_loop (server_step h) (']' :: rest) cs = ([], ']' :: (rest ++ cs.flatten)) :=
  run_loop_rbracket cs h rest

/-- C2.  Chunk-boundary independence: however a concatenation of K
encoded well-formed request objects is cut into chunks, feeding the
chunks to the loop in order decodes exactly those K requests, in order,
and leaves nothing buffered. -/
theorem C2_chunk_boundary_independence (vs : List J) (cs : List (List Char))
    (h : Handlers) (hwf : allWfObj vs = true)
    (hstream : cs.flatten = ((vs.map encode).flatten)) :
    decodedOf (run_loop (server_step h) [] cs).1 = vs ∧
    (run_loop (server_step h) [] cs).2 = [] := by
  have hrun := run_loop_stream cs [] vs (server_step h) hwf (by simpa using hstream)
    raw_decode_nil
  rw [hrun]
  exact ⟨decodedOf_server vs h, rfl⟩

theorem C2_witness :
    decodedOf (run_loop (server_step McpServer_init) []
      [((encode (J.obj [("id".data, J.num 1)])
          ++ encode (J.obj [("id".data, J.num 2)])).take 5),
       ((encode (J.obj [("id".data, J.num 1)])
          ++ encode (J.obj [("id".data, J.num 2)])).drop 5)]).1
      = [J.obj [("id".data, J.num 1)], J.obj [("id".data, J.num 2)]] ∧
    (run_loop (server_step McpServer_init) []
      [((encode (J.obj [("id".data, J.num 1)])
          ++ encode (J.obj [("id".data, J.num 2)])).take 5),
       ((encode (J.obj [("id".data, J.num 1)])
          ++ encode (J.obj [("id".data, J.num 2)])).drop 5)]).2 = [] :=
  C2_chunk_boundary_independence
    [J.obj [("id".data, J.num 1)], J.obj [("id".data, J.num 2)]]
    [((encode (J.obj [("id".data, J.num 1)])
        ++ encode (J.obj [("id".data, J.num 2)])).take 5),
     ((encode (J.obj [("id".data, J.num 1)])
        ++ encode (J.obj [("id".data, J.num 2)])).drop 5)]
    McpServer_init (by decide) (by decide)

/-- C3.  A handler that raises is translated to a `-32603` envelope with
the message built from the failure and the id echoed; `handle_request`
always returns one of the two well-formed envelopes (it never raises);
and over one connection the response list is the per-message map of the
dispatcher, so a failure on message N leaves message N+1's dispatch and
response untouched. -/
theorem C3_handler_failure_isolation :
    (∀ (h : Handlers) (f : Unit → Except (List Char) J) (req : J) (e : List Char),
      dictGet req "method".data = some (J.str "tools/list".data) →
      h.tools_handler = some f → f () = Except.error e →
      handle_request h req
        = errResponse (reqIdOf req) (-32603) ("Internal error: ".data ++ e)) ∧
    (∀ (h : Handlers) (g : J → Except (List Char) J) (req : J) (e : List Char),
      dictGet req "method".data = some (J.str "tools/call".data) →
      h.call_tool_handler = some g →
      g ((dictGet req "params".data).getD (J.obj [])) = Except.error e →
      handle_request h req
        = errResponse (reqIdOf req) (-32603) ("Internal error: ".data ++ e)) ∧
    (∀ (h : Handlers) (f : Unit → Except (List Char) J) (req : J) (e : List Char),
      dictGet req "method".data = some (J.str "resources/list".data) →
      h.resources_handler = some f → f () = Except.error e →
      handle_request h req
        = errResponse (reqIdOf req) (-32603) ("Internal error: ".data ++ e)) ∧
    (∀ (h : Handlers) (g : J → Except (List Char) J) (req : J) (e : List Char),
      dictGet req "method".data = some (J.str "resources/read".data) →
      h.read_resource_handler = some g →
      g ((dictGet req "params".data).getD (J.obj [])) = Except.error e →
      handle_request h req
        = errResponse (reqIdOf req) (-32603) ("Internal error: ".data ++ e)) ∧
    (∀ (h : Handlers) (req : J),
      (∃ res, handle_request h req = okResponse (reqIdOf req) res) ∨
      (∃ code msg, handle_request h req = errResponse (reqIdOf req) code msg)) ∧
    (∀ (h : Handlers) (r1 r2 : J), allWfObj [r1, r2] = true →
      writtenOf (run_loop (server_step h) [] [encode r1 ++ encode r2]).1
        = [handle_request h r1, handle_request h r2]) := by
  refine ⟨?_, ?_, ?_, ?_, fun h req => handle_request_shape h req, ?_⟩
  · intro h f req e hm hn hf
    unfold handle_request reqIdOf
    dsimp only
    rw [hm]
    dsimp only
    rw [if_pos rfl, hn]
    dsimp only
    rw [hf]
  · intro h g req e hm hn hf
    unfold handle_request reqIdOf
    dsimp only
    rw [hm]
    dsimp only
    rw [if_neg (by decide), if_pos rfl, hn]
    dsimp only
    rw [hf]
  · intro h f req e hm hn hf
    unfold handle_request reqIdOf
    dsimp only
    rw [hm]
    dsimp only
    rw [if_neg (by decide), if_neg (by decide), if_pos rfl, hn]
    dsimp only
    rw [hf]
  · intro h g req e hm hn hf
    unfold handle_request reqIdOf
    dsimp only
    rw [hm]
    dsimp only
    rw [if_neg (by decide), if_neg (by decide), if_neg (by decide), if_pos rfl, hn]
    dsimp only
    rw [hf]
  · intro h r1 r2 hwf
    have hrun := run_loop_stream [encode r1 ++ encode r2] [] [r1, r2] (server_step h)
      hwf (by simp) raw_decode_nil
    rw [hrun]
    exact writtenOf_server [r1, r2] h

theorem C3_witness :
    handle_request (list_tools (fun _ => Except.error "boom".data) McpServer_init)
        (J.obj [("id".data, J.num 7), ("method".data, J.str "tools/list".data)])
      = errResponse (J.num 7) (-32603) ("Internal error: boom".data) ∧
    writtenOf (run_loop
        (server_step (list_tools (fun _ => Except.error "boom".data) McpServer_init)) []
        [encode (J.obj [("id".data, J.num 7), ("method".data, J.str "tools/list".data)])
          ++ encode (J.obj [("id".data, J.num 8), ("method".data, J.str "nope".data)])]).1
      = [handle_request (list_tools (fun _ => Except.error "boom".data) McpServer_init)
           (J.obj [("id".data, J.num 7), ("method".data, J.str "tools/list".data)]),
         handle_request (list_tools (fun _ => Except.error "boom".data) McpServer_init)
           (J.obj [("id".data, J.num 8), ("method".data, J.str "nope".data)])] := by
  refine ⟨?_, ?_⟩
  · exact C3_handler_failure_isolation.1
      (list_tools (fun _ => Except.error "boom".data) McpServer_init)
      (fun _ => Except.error "boom".data)
      (J.obj [("id".data, J.num 7), ("method".data, J.str "tools/list".data)])
      ("boom".data) rfl rfl rfl
  · exact C3_handler_failure_isolation.2.2.2.2.2
      (list_tools (fun _ => Except.error "boom".data) McpServer_init)
      (J.obj [("id".data, J.num 7), ("method".data, J.str "tools/list".data)])
      (J.obj [("id".data, J.num 8), ("method".data, J.str "nope".data)])
      (by decide)

/-- C4.  Every downstream failure of the bridge — non-200 status, elapsed
timeout (configured at 30 seconds), body that fails to decode, or any
other raised failure — is translated into exactly one synthesized
`-32603` envelope naming the failure class and echoing the request's id;
no failure propagates in any other form. -/
theorem C4_forwarder_failure_envelope :
    (∀ (status : Nat) (body : Except (List Char) J) (req : J), status ≠ 200 →
      forward_request (DownstreamOutcome.response status body) req
        = errResponse (reqIdOf req) (-32603) ("HTTP Error: ".data ++ encodeNat status)) ∧
    (∀ req : J, forward_request DownstreamOutcome.timeout req
        = errResponse (reqIdOf req) (-32603) ("Request timeout".data)) ∧
    (∀ (e : List Char) (req : J), forward_request (DownstreamOutcome.failure e) req
        = errResponse (reqIdOf req) (-32603) ("Bridge error: ".data ++ e)) ∧
    (∀ (e : List Char) (req : J),
      forward_request (DownstreamOutcome.response 200 (Except.error e)) req
        = errResponse (reqIdOf req) (-32603) ("Bridge error: ".data ++ e)) ∧
    bridge_timeout_seconds = 30 := by
  refine ⟨?_, fun req => rfl, fun e req => rfl, fun e req => rfl, rfl⟩
  intro status body req hs
  unfold forward_request reqIdOf
  dsimp only
  split
  · rename_i heq
    injection heq with h1 h2
    exact absurd h1 hs
  · rename_i heq
    injection heq with h1 h2
    exact absurd h1 hs
  · rename_i heq
    injection heq with h1 h2
    rw [← h1]
  · rename_i heq
    exact DownstreamOutcome.noConfusion heq
  · rename_i heq
    exact DownstreamOutcome.noConfusion heq

theorem C4_witness :
    forward_request (DownstreamOutcome.response 500 (Except.ok J.null))
        (J.obj [("id".data, J.num 3)])
      = errResponse (J.num 3) (-32603) ("HTTP Error: 500".data) ∧
    forward_request DownstreamOutcome.timeout (J.obj [("id".data, J.num 4)])
      = errResponse (J.num 4) (-32603) ("Request timeout".data) := by
  refine ⟨?_, ?_⟩
  · exact C4_forwarder_failure_envelope.1 500 (Except.ok J.null)
      (J.obj [("id".data, J.num 3)]) (by decide)
  · exact C4_forwarder_failure_envelope.2.1 (J.obj [("id".data, J.num 4)])

/-- C5 (counterexample).  The claim says request N+1 may be sent
downstream before request N's response arrives and that correlation is by
id, not order.  The bridge loop in fact awaits `forward_request` inline:
with two requests in one chunk the trace is strictly
send/receive/write for message 1, then send/receive/write for message 2 —
message 2 is sent only after message 1's response has been received and
written, and responses are delivered in submission order. -/
theorem C5_counterexample :
    (run_loop (bridge_step (fun _ => DownstreamOutcome.response 200 (Except.ok J.null)))
        [] [encode (J.obj [("id".data, J.num 1)])
              ++ encode (J.obj [("id".data, J.num 2)])]).1
      = [Ev.sent (J.obj [("id".data, J.num 1)]), Ev.received J.null, Ev.wrote J.null,
         Ev.sent (J.obj [("id".data, J.num 2)]), Ev.received J.null, Ev.wrote J.null] := by
  decide

/-- C5 (amended).  The bridge serializes its forwards: the stdio loop's
trace is the per-message concatenation of `sent`, `received`, `wrote`
blocks, so each request is sent downstream only after the previous
request's response has been received and written, and responses are
correlated to requests by order of arrival, not by id. -/
theorem C5_bridge_serializes (vs : List J) (cs : List (List Char))
    (downstream : J → DownstreamOutcome) (hwf : allWfObj vs = true)
    (hstream : cs.flatten = ((vs.map encode).flatten)) :
    run_loop (bridge_step downstream) [] cs
      = (((vs.map (bridge_step downstream)).flatten), []) :=
  run_loop_stream cs [] vs (bridge_step downstream) hwf (by simpa using hstream)
    raw_decode_nil

theorem C5_witness :
    run_loop (bridge_step (fun _ => DownstreamOutcome.timeout))
        [] [encode (J.obj [("id".data, J.num 5)])]
      = (([J.obj [("id".data, J.num 5)]].map
            (bridge_step (fun _ => DownstreamOutcome.timeout))).flatten, []) :=
  C5_bridge_serializes [J.obj [("id".data, J.num 5)]]
    [encode (J.obj [("id".data, J.num 5)])]
    (fun _ => DownstreamOutcome.timeout) (by decide) (by decide)

/-- C6.  Any request whose method is a string naming none of the four
dispatch arms gets the `-32601` envelope with its id echoed, and the
spec's concrete example dispatches to exactly the spec's concrete error
response. -/
theorem C6_unknown_method :
    (∀ (h : Handlers) (req : J) (m : List Char),
      dictGet req "method".data = some (J.str m) →
      m ≠ "tools/list".data → m ≠ "tools/call".data →
      m ≠ "resources/list".data → m ≠ "resources/read".data →
      handle_request h req
        = errResponse (reqIdOf req) (-32601) ("Method not found: ".data ++ m)) ∧
    handle_request McpServer_init
        (J.obj [("id".data, J.num 2), ("method".data, J.str "nope".data),
                ("params".data, J.obj [])])
      = J.obj [("jsonrpc".data, J.str "2.0".data), ("id".data, J.num 2),
               ("error".data, J.obj [("code".data, J.num (-32601)),
                  ("message".data, J.str "Method not found: nope".data)])] := by
  refine ⟨?_, by decide⟩
  intro h req m hm h1 h2 h3 h4
  unfold handle_request reqIdOf
  dsimp only
  rw [hm]
  dsimp only
  rw [if_neg h1, if_neg h2, if_neg h3, if_neg h4]
  rfl

theorem C6_witness :
    handle_request McpServer_init
        (J.obj [("id".data, J.num 2), ("method".data, J.str "nope".data),
                ("params".data, J.obj [])])
      = errResponse (J.num 2) (-32601) ("Method not found: nope".data) :=
  C6_unknown_method.1 McpServer_init
    (J.obj [("id".data, J.num 2), ("method".data, J.str "nope".data),
            ("params".data, J.obj [])])
    ("nope".data) rfl (by decide) (by decide) (by decide) (by decide)

/-- C7.  Every response of `handle_request` carries `jsonrpc = "2.0"`,
echoes `request.get("id")` verbatim (so type and `null` are preserved;
a missing id becomes `null`), and has exactly one of `result`/`error`. -/
theorem C7_envelope_invariants (h : Handlers) (req : J) :
    dictGet (handle_request h req) "jsonrpc".data = some (J.str "2.0".data) ∧
    dictGet (handle_request h req) "id".data
      = some ((dictGet req "id".data).getD J.null) ∧
    (dictGet (handle_request h req) "result".data).isSome
      = !((dictGet (handle_request h req) "error".data).isSome) := by
  rcases handle_request_shape h req with ⟨res, he⟩ | ⟨code, msg, he⟩ <;> rw [he] <;>
    exact ⟨rfl, rfl, rfl⟩

/-- C8.  Strict per-connection ordering on stdio: the loop's trace is the
per-message concatenation of decode, dispatch, write, so at every prefix
of the trace the number of dispatches begun never exceeds the number of
responses already written by more than one (and never lags it): response
N is fully written before request N+1 is dispatched. -/
theorem C8_strict_ordering (h : Handlers) (vs : List J) (cs : List (List Char))
    (hwf : allWfObj vs = true)
    (hstream : cs.flatten = ((vs.map encode).flatten)) :
    (run_loop (server_step h) [] cs).1 = ((vs.map (server_step h)).flatten) ∧
    ∀ k, countDispatched (((run_loop (server_step h) [] cs).1).take k)
          ≤ countWritten (((run_loop (server_step h) [] cs).1).take k) + 1 ∧
        countWritten (((run_loop (server_step h) [] cs).1).take k)
          ≤ countDispatched (((run_loop (server_step h) [] cs).1).take k) := by
  have hrun := run_loop_stream cs [] vs (server_step h) hwf (by simpa using hstream)
    raw_decode_nil
  rw [hrun]
  exact ⟨rfl, fun k => server_trace_counts vs h k⟩

theorem C8_witness :
    (run_loop (server_step McpServer_init) []
        [encode (J.obj [("id".data, J.num 1)])]).1
      = (([J.obj [("id".data, J.num 1)]].map (server_step McpServer_init)).flatten) ∧
    (countDispatched ((run_loop (server_step McpServer_init) []
          [encode (J.obj [("id".data, J.num 1)])]).1.take 2)
        ≤ countWritten ((run_loop (server_step McpServer_init) []
          [encode (J.obj [("id".data, J.num 1)])]).1.take 2) + 1 ∧
      countWritten ((run_loop (server_step McpServer_init) []
          [encode (J.obj [("id".data, J.num 1)])]).1.take 2)
        ≤ countDispatched ((run_loop (server_step McpServer_init) []
          [encode (J.obj [("id".data, J.num 1)])]).1.take 2)) := by
  have := C8_strict_ordering McpServer_init [J.obj [("id".data, J.num 1)]]
    [encode (J.obj [("id".data, J.num 1)])] (by decide) (by decide)
  exact ⟨this.1, this.2 2⟩

/-- C9.  Re-registering a handler for any of the four methods overwrites
the previous binding — the resulting server state is the same as if only
the last registration had happened — and dispatch of the method then
invokes only the last-registered handler. -/
theorem C9_last_registration_wins :
    (∀ (h : Handlers) (f1 f2 : Unit → Except (List Char) J),
      list_tools f2 (list_tools f1 h) = list_tools f2 h) ∧
    (∀ (h : Handlers) (g1 g2 : J → Except (List Char) J),
      call_tool g2 (call_tool g1 h) = call_tool g2 h) ∧
    (∀ (h : Handlers) (f1 f2 : Unit → Except (List Char) J),
      list_resources f2 (list_resources f1 h) = list_resources f2 h) ∧
    (∀ (h : Handlers) (g1 g2 : J → Except (List Char) J),
      read_resource g2 (read_resource g1 h) = read_resource g2 h) ∧
    (∀ (h : Handlers) (f1 f2 : Unit → Except (List Char) J) (req : J),
      dictGet req "method".data = some (J.str "tools/list".data) →
      handle_request (list_tools f2 (list_tools f1 h)) req
        = match f2 () with
          | Except.ok res => okResponse (reqIdOf req) res
          | Except.error e =>
            errResponse (reqIdOf req) (-32603) ("Internal error: ".data ++ e)) := by
  refine ⟨fun h f1 f2 => rfl, fun h g1 g2 => rfl, fun h f1 f2 => rfl,
    fun h g1 g2 => rfl, ?_⟩
  intro h f1 f2 req hm
  unfold handle_request reqIdOf
  dsimp only
  rw [hm]
  dsimp only
  rw [if_pos rfl]
  rfl

theorem C9_witness :
    list_tools (fun _ => Except.ok (J.num 2))
        (list_tools (fun _ => Except.ok (J.num 1)) McpServer_init)
      = list_tools (fun _ => Except.ok (J.num 2)) McpServer_init ∧
    handle_request (list_tools (fun _ => Except.ok (J.num 2))
        (list_tools (fun _ => Except.ok (J.num 1)) McpServer_init))
        (J.obj [("id".data, J.num 9), ("method".data, J.str "tools/list".data)])
      = okResponse (J.num 9) (J.num 2) := by
  refine ⟨?_, ?_⟩
  · exact C9_last_registration_wins.1 McpServer_init
      (fun _ => Except.ok (J.num 1)) (fun _ => Except.ok (J.num 2))
  · exact C9_last_registration_wins.2.2.2.2 McpServer_init
      (fun _ => Except.ok (J.num 1)) (fun _ => Except.ok (J.num 2))
      (J.obj [("id".data, J.num 9), ("method".data, J.str "tools/list".data)]) rfl

/-- C10.  A defined method whose handler slot is unbound falls through to
the same `-32601` "Method not found" envelope as an undefined method,
with the id echoed. -/
theorem C10_unbound_handler_method_not_found (h : Handlers) (req : J) :
    (dictGet req "method".data = some (J.str "tools/list".data) →
      h.tools_handler = none →
      handle_request h req
        = errResponse (reqIdOf req) (-32601) ("Method not found: tools/list".data)) ∧
    (dictGet req "method".data = some (J.str "tools/call".data) →
      h.call_tool_handler = none →
      handle_request h req
        = errResponse (reqIdOf req) (-32601) ("Method not found: tools/call".data)) ∧
    (dictGet req "method".data = some (J.str "resources/list".data) →
      h.resources_handler = none →
      handle_request h req
        = errResponse (reqIdOf req) (-32601) ("Method not found: resources/list".data)) ∧
    (dictGet req "method".data = some (J.str "resources/read".data) →
      h.read_resource_handler = none →
      handle_request h req
        = errResponse (reqIdOf req) (-32601)
            ("Method not found: resources/read".data)) := by
  refine ⟨?_, ?_, ?_, ?_⟩
  · intro hm hn
    unfold handle_request reqIdOf
    dsimp only
    rw [hm]
    dsimp only
    rw [if_pos rfl, hn]
    rfl
  · intro hm hn
    unfold handle_request reqIdOf
    dsimp only
    rw [hm]
    dsimp only
    rw [if_neg (by decide), if_pos rfl, hn]
    rfl
  · intro hm hn
    unfold handle_request reqIdOf
    dsimp only
    rw [hm]
    dsimp only
    rw [if_neg (by decide), if_neg (by decide), if_pos rfl, hn]
    rfl
  · intro hm hn
    unfold handle_request reqIdOf
    dsimp only
    rw [hm]
    dsimp only
    rw [if_neg (by decide), if_neg (by decide), if_neg (by decide), if_pos rfl, hn]
    rfl

theorem C10_witness :
    handle_request McpServer_init
        (J.obj [("id".data, J.num 1), ("method".data, J.str "tools/list".data)])
      = errResponse (J.num 1) (-32601) ("Method not found: tools/list".data) ∧
    handle_request McpServer_init
        (J.obj [("id".data, J.str "abc".data),
                ("method".data, J.str "resources/read".data)])
      = errResponse (J.str "abc".data) (-32601)
          ("Method not found: resources/read".data) := by
  refine ⟨?_, ?_⟩
  · exact (C10_unbound_handler_method_not_found McpServer_init
      (J.obj [("id".data, J.num 1), ("method".data, J.str "tools/list".data)])).1
      rfl rfl
  · exact (C10_unbound_handler_method_not_found McpServer_init
      (J.obj [("id".data, J.str "abc".data),
              ("method".data, J.str "resources/read".data)])).2.2.2
      rfl rfl

example : raw_decode ("\"ab\"x".data) = some (J.str ['a', 'b'], ['x']) := by decide

example : raw_decode ("]".data) = none := by decide

example :
    raw_decode ("\x7b\"id\":1\x7d\x7b".data)
      = some (J.obj [(['i', 'd'], J.num 1)], ['\x7b']) := by decide

example : raw_decode (" \x7b\x7d".data) = none := by decide

example : encode (J.obj [(['i', 'd'], J.num (-12))]) = "\x7b\"id\":-12\x7d".data := by decide

example : raw_decode ("[1,\"a\", true]".data)
    = some (J.arr [J.num 1, J.str ['a'], J.bool true], []) := by decide

example : raw_decode ("01".data) = some (J.num 0, ['1']) := by decide

end MCP
